import Mathlib

/-!
# JA3 fingerprinting: ClientHello decoder and JA3 encoder

A shallow embedding of `tls_clienthello_parser.go` (`ParseClientHello`) and `ja3.go`
(`MarshalJA3`), followed by the properties established about them.

Conventions of the embedding:

* a Go `byte` is `Fin 256`, a Go `uint16` is `Fin 65536`, a Go `int` that cannot overflow is `Nat`;
* a `bytes.Buffer` that is only read from is the list of its unread bytes;
* a Go function returning `(value, error)` returns `Except Exit value`: `.ok v` is `return v, nil`,
  `.error (.ret v e)` is `return v, e` with a non-nil `e`, and `.error (.panic _)` is a run-time
  panic (index or slice bounds out of range);
* the loop over the extensions block takes one unit of fuel per iteration and starts with the
  length of the block; `ParseClientHello_ne_outOfFuel` shows that this is always enough;
* the `fmt.Print*` calls are diagnostics and are left out.
-/

namespace JA3

/-! ## Data model -/

/-- Go `byte` / `uint8`. -/
abbrev Byte := Fin 256

/-- Go `uint16`. -/
abbrev U16 := Fin 65536

/-- The anonymous struct type of the field `TLSVersion`. -/
structure TLSVersion where
  Major : Byte := 0
  Minor : Byte := 0
  deriving DecidableEq, Repr

/-- The anonymous struct type of the field `Compression` (`Type_` is the Go field `Type`). -/
structure Compression where
  Method : Byte := 0
  Type_ : Byte := 0
  deriving DecidableEq, Repr

/-- The struct `ParsedClientHello`; the field defaults are Go zero values, so that `{}` is
`ParsedClientHello{}` (a nil slice is the empty list). -/
structure ParsedClientHello where
  TLSVersion : TLSVersion := {}
  CipherSuites : List U16 := []
  Compression : Compression := {}
  Extensions : List U16 := []
  SNI : List Byte := []
  EllipticCurves : List U16 := []
  EllipticCurveCompressionFormat : List Byte := []
  deriving DecidableEq, Repr

/-- The non-nil `error` values `ParseClientHello` can return. -/
inductive GoError
  /-- An `encoding/hex` `InvalidByteError`. -/
  | hexInvalidByte
  /-- The `encoding/hex` error `ErrLength`. -/
  | hexErrLength
  /-- The error `io.EOF`. -/
  | EOF
  /-- The error `io.ErrUnexpectedEOF`. -/
  | ErrUnexpectedEOF
  /-- Line 58: "unable to read client hello packet: ...". -/
  | unableToRead
  /-- Line 62: "not a client hello packet, got %x". -/
  | notClientHello (header : Byte)
  /-- Lines 110 and 130: "expected n to be %d, got %d", with the two arguments as passed. -/
  | expectedN (a b : Nat)
  /-- Line 172: "no extensions". -/
  | noExtensions
  /-- Line 180: "unable to get extensions: ...". -/
  | unableToGetExtensions
  /-- Line 224: "expected DNS hostname type for SNI extension". -/
  | sniNotDNSHostname
  /-- Line 255: "unable to parse ecpfExtensionType due to invalid data". -/
  | ecpfInvalidData
  deriving DecidableEq, Repr

/-- Go run-time panics raised by indexing and slicing. -/
inductive Panic
  /-- The panic of `s[index]` with `len(s) = length ≤ index`. -/
  | indexOutOfRange (index length : Nat)
  /-- The panic of `s[low:]` with `len(s) = length < low`. -/
  | sliceBoundsOutOfRange (low length : Nat)
  deriving DecidableEq, Repr

/-- The ways a call of `ParseClientHello` ends other than `return p, nil`. -/
inductive Exit
  /-- The statement `return p, err` with a non-nil `err`. -/
  | ret (p : ParsedClientHello) (err : GoError)
  /-- A run-time panic. -/
  | panic (p : Panic)
  /-- The fuel of the model of the extensions loop ran out (shown never to happen). -/
  | outOfFuel
  deriving DecidableEq, Repr

deriving instance DecidableEq for Except

/-! ## Library operations used by the parser -/

/-- The table `reverseHexTable` of `encoding/hex`: the value of a hexadecimal digit. -/
def fromHexChar (c : Char) : Option Nat :=
  if 48 ≤ c.toNat ∧ c.toNat ≤ 57 then some (c.toNat - 48)
  else if 97 ≤ c.toNat ∧ c.toNat ≤ 102 then some (c.toNat - 97 + 10)
  else if 65 ≤ c.toNat ∧ c.toNat ≤ 70 then some (c.toNat - 65 + 10)
  else none

/-- The loop of `hex.Decode`: two digits per byte, an invalid digit reported before a bad
length. -/
def hexDecode : List Char → Except GoError (List Byte)
  | [] => .ok []
  | [p] =>
    match fromHexChar p with
    | none => .error .hexInvalidByte
    | some _ => .error .hexErrLength
  | p :: q :: rest =>
    match fromHexChar p, fromHexChar q with
    | some a, some b =>
      match hexDecode rest with
      | .ok bs => .ok (⟨((a <<< 4) ||| b) % 256, Nat.mod_lt _ (by decide)⟩ :: bs)
      | .error e => .error e
    | _, _ => .error .hexInvalidByte

/-- The function `hex.DecodeString`. -/
def hexDecodeString (s : String) : Except GoError (List Byte) :=
  hexDecode s.data

/-- The method `(*bytes.Buffer).ReadByte`: `io.EOF` on an empty buffer. -/
def ReadByte (buf : List Byte) : Except GoError (Byte × List Byte) :=
  match buf with
  | [] => .error .EOF
  | b :: rest => .ok (b, rest)

/-- The method `(*bytes.Buffer).Read` into a fresh `make([]byte, len)`: on an empty buffer it
returns `0, nil` when `len = 0` and `0, io.EOF` otherwise; on a non-empty buffer it copies
`n = min len (buffer length)` bytes and returns `n, nil`, the rest of the slice keeping its
zeros. The result is the slice, `n` and the unread bytes. -/
def Read (buf : List Byte) (len : Nat) : Except GoError (List Byte × Nat × List Byte) :=
  match buf with
  | [] => if len = 0 then .ok ([], 0, []) else .error .EOF
  | _ :: _ =>
    let n := min len buf.length
    .ok (buf.take n ++ List.replicate (len - n) 0, n, buf.drop n)

/-- The value `binary.BigEndian.Uint16(b)`: `uint16(b[1]) | uint16(b[0])<<8`. -/
def bigEndianUint16 (b0 b1 : Byte) : U16 :=
  ⟨(b1.val ||| (b0.val <<< 8)) % 65536, Nat.mod_lt _ (by decide)⟩

/-- The call `binary.Read(buf, binary.BigEndian, &v)` for a `uint16` `v`: `io.ReadFull` of two
bytes. With fewer than two unread bytes the buffer is drained and the error is `io.EOF` (none
read) or `io.ErrUnexpectedEOF` (one read); `v` is then left unchanged. The result is the error
or the value, and the unread bytes. -/
def binaryReadUint16 (buf : List Byte) : Except GoError U16 × List Byte :=
  match buf with
  | [] => (.error .EOF, [])
  | [_] => (.error .ErrUnexpectedEOF, [])
  | b0 :: b1 :: rest => (.ok (bigEndianUint16 b0 b1), rest)

/-- The index expression `s[i]`. -/
def index (s : List Byte) (i : Nat) : Except Exit Byte :=
  match s[i]? with
  | some b => .ok b
  | none => .error (.panic (.indexOutOfRange i s.length))

/-- The slice expression `s[low:]` of a slice whose capacity is its length. -/
def sliceFrom (s : List Byte) (low : Nat) : Except Exit (List Byte) :=
  if low ≤ s.length then .ok (s.drop low)
  else .error (.panic (.sliceBoundsOutOfRange low s.length))

/-! ## `ParseClientHello` (tls_clienthello_parser.go) -/

/-- The constant `greaseBitmask`. -/
def greaseBitmask : Nat := 0x0F0F

/-- The constant `sniExtensionType`. -/
def sniExtensionType : U16 := 0

/-- The constant `supportedGroupsType`. -/
def supportedGroupsType : U16 := 10

/-- The constant `ecpfExtensionType`. -/
def ecpfExtensionType : U16 := 11

/-- Lines 142-147: the loop reading `n` cipher suites. The error of `binary.Read` is dropped, so
a failed read appends the zero value of `cipherSuite`. -/
def readCipherSuites : Nat → List Byte → List U16 → List U16 × List Byte
  | 0, buf, acc => (acc, buf)
  | n + 1, buf, acc =>
    match binaryReadUint16 buf with
    | (.ok cipherSuite, buf) => readCipherSuites n buf (acc ++ [cipherSuite])
    | (.error _, buf) => readCipherSuites n buf (acc ++ [0])

/-- Lines 237-242: the loop over the supported groups, with `n` iterations left from index `i`. -/
def curvesLoop (supportedCurves : List Byte) : Nat → Nat → List U16 → Except Exit (List U16)
  | 0, _, acc => .ok acc
  | n + 1, i, acc => do
    let hi ← index supportedCurves (i * 2)
    let lo ← index supportedCurves (1 + i * 2)
    let ecType : U16 := ⟨((hi.val <<< 8) ||| lo.val) % 65536, Nat.mod_lt _ (by decide)⟩
    if ecType.val &&& greaseBitmask ≠ 0x0A0A then
      curvesLoop supportedCurves n (i + 1) (acc ++ [ecType])
    else
      curvesLoop supportedCurves n (i + 1) acc

/-- Lines 260-262: the loop over the point formats, with `n` iterations left from index `i`. -/
def formatsLoop (compressions : List Byte) : Nat → Nat → List Byte → Except Exit (List Byte)
  | 0, _, acc => .ok acc
  | n + 1, i, acc => do
    let c ← index compressions i
    formatsLoop compressions n (i + 1) (acc ++ [c])

/-- Lines 217-265: the `switch extensionType` on the contents of one extension. -/
def parseExtensionContents (extensionType : U16) (contents : List Byte)
    (parsedClientHello : ParsedClientHello) : Except Exit ParsedClientHello :=
  if extensionType = sniExtensionType then do
    let entryType ← index contents 3
    if entryType ≠ 0 then
      throw (.ret {} .sniNotDNSHostname)
    let sni ← sliceFrom contents 5
    pure { parsedClientHello with SNI := sni }
  else if extensionType = supportedGroupsType then do
    let c0 ← index contents 0
    let c1 ← index contents 1
    let supportedGroupsListLength : U16 :=
      ⟨((c0.val <<< 8) ||| c1.val) % 65536, Nat.mod_lt _ (by decide)⟩
    let curves := supportedGroupsListLength.val / 2
    let supportedCurves ← sliceFrom contents 2
    let ellipticCurves ← curvesLoop supportedCurves curves 0 []
    pure { parsedClientHello with EllipticCurves := ellipticCurves }
  else if extensionType = ecpfExtensionType then do
    if contents.length < 2 then
      throw (.ret {} .ecpfInvalidData)
    let compressionLength ← index contents 0
    let compressions ← sliceFrom contents 1
    let formats ← formatsLoop compressions compressionLength.val 0
      parsedClientHello.EllipticCurveCompressionFormat
    pure { parsedClientHello with EllipticCurveCompressionFormat := formats }
  else
    pure parsedClientHello

/-- Lines 190-266: the loop `for extensionsBuf.Len() > 0`, one iteration per unit of fuel. -/
def extensionsLoop : Nat → List Byte → ParsedClientHello → Except Exit ParsedClientHello
  | 0, extensionsBuf, parsedClientHello =>
    if extensionsBuf.length > 0 then .error .outOfFuel else .ok parsedClientHello
  | fuel + 1, extensionsBuf, parsedClientHello =>
    if extensionsBuf.length > 0 then
      match binaryReadUint16 extensionsBuf with
      | (.error err, _) => .error (.ret {} err)
      | (.ok extensionType, extensionsBuf) =>
        let parsedClientHello :=
          if extensionType.val &&& greaseBitmask ≠ 0x0A0A then
            { parsedClientHello with Extensions := parsedClientHello.Extensions ++ [extensionType] }
          else parsedClientHello
        match binaryReadUint16 extensionsBuf with
        | (.error err, _) => .error (.ret {} err)
        | (.ok extensionContentLength, extensionsBuf) =>
          match Read extensionsBuf extensionContentLength.val with
          | .error err => .error (.ret {} err)
          | .ok (contents, _, extensionsBuf) =>
            match parseExtensionContents extensionType contents parsedClientHello with
            | .error e => .error e
            | .ok parsedClientHello => extensionsLoop fuel extensionsBuf parsedClientHello
    else .ok parsedClientHello

/-- Lines 55-85: the handshake header; the result is `clientHelloPacket`. -/
def readHandshake (clientHelloBytes : List Byte) : Except Exit (List Byte) :=
  match ReadByte clientHelloBytes with
  | .error _ => .error (.ret {} .unableToRead)
  | .ok (header, buf) =>
    if header ≠ 0x01 then .error (.ret {} (.notClientHello header))
    else
      match Read buf 3 with
      | .error err => .error (.ret {} err)
      | .ok (handshakeHeader, _, buf) =>
        let handshakeLength : Nat :=
          ((handshakeHeader.getD 0 0).val <<< 16) ||| ((handshakeHeader.getD 1 0).val <<< 8)
            ||| (handshakeHeader.getD 2 0).val
        match Read buf handshakeLength with
        | .error err => .error (.ret {} err)
        | .ok (clientHelloPacket, _, _) => .ok clientHelloPacket

/-- Lines 85-269: the handshake body `clientHelloPacket`. -/
def parseClientHelloPacket (clientHelloPacket : List Byte) : Except Exit ParsedClientHello :=
  match ReadByte clientHelloPacket with
  | .error err => .error (.ret {} err)
  | .ok (tlsMajorVersion, clientHelloBuf) =>
  match ReadByte clientHelloBuf with
  | .error err => .error (.ret {} err)
  | .ok (tlsMinorVersion, clientHelloBuf) =>
  let parsedClientHello : ParsedClientHello :=
    { TLSVersion := { Major := tlsMajorVersion, Minor := tlsMinorVersion } }
  -- read client random
  match Read clientHelloBuf 32 with
  | .error err => .error (.ret {} err)
  | .ok (_, n, clientHelloBuf) =>
  if n ≠ 32 then .error (.ret {} (.expectedN n 32)) else
  -- read session id
  match ReadByte clientHelloBuf with
  | .error err => .error (.ret {} err)
  | .ok (sessionIdLength, clientHelloBuf) =>
  match Read clientHelloBuf sessionIdLength.val with
  | .error err => .error (.ret {} err)
  | .ok (_, n, clientHelloBuf) =>
  if n ≠ sessionIdLength.val then .error (.ret {} (.expectedN sessionIdLength.val n)) else
  match binaryReadUint16 clientHelloBuf with
  | (.error err, _) => .error (.ret {} err)
  | (.ok cipherSuites, clientHelloBuf) =>
  match readCipherSuites (cipherSuites.val / 2) clientHelloBuf [] with
  | (suites, clientHelloBuf) =>
  let parsedClientHello := { parsedClientHello with CipherSuites := suites }
  match ReadByte clientHelloBuf with
  | .error err => .error (.ret {} err)
  | .ok (compressionMethod, clientHelloBuf) =>
  match ReadByte clientHelloBuf with
  | .error err => .error (.ret {} err)
  | .ok (compressionType, clientHelloBuf) =>
  let parsedClientHello :=
    { parsedClientHello with
      Compression := { Method := compressionMethod, Type_ := compressionType } }
  match binaryReadUint16 clientHelloBuf with
  | (.error err, _) => .error (.ret {} err)
  | (.ok extensionsLength, clientHelloBuf) =>
  if extensionsLength.val = 0 then .error (.ret {} .noExtensions) else
  match Read clientHelloBuf extensionsLength.val with
  | .error _ => .error (.ret {} .unableToGetExtensions)
  | .ok (extensionsData, _, _) =>
  extensionsLoop extensionsData.length extensionsData parsedClientHello

/-- Lines 55-269: `ParseClientHello` after the hexadecimal decoding. -/
def ParseClientHelloBytes (clientHelloBytes : List Byte) : Except Exit ParsedClientHello :=
  match readHandshake clientHelloBytes with
  | .error e => .error e
  | .ok clientHelloPacket => parseClientHelloPacket clientHelloPacket

/-- The function `ParseClientHello`. -/
def ParseClientHello (clientHello : String) : Except Exit ParsedClientHello :=
  match hexDecodeString clientHello with
  | .error err => .error (.ret {} err)
  | .ok clientHelloBytes => ParseClientHelloBytes clientHelloBytes

/-! ## `MarshalJA3` (ja3.go)

The scratch `bytes.Buffer` only ever holds ASCII text, and is modelled by the `String` of its
characters; `Bytes` gives its bytes back where the digest is taken. -/

/-- The variable `FieldDelimiter`, `byte(',')`; nothing assigns to it. -/
def FieldDelimiter : Char := ','

/-- The variable `ValueDelimiter`, `byte('-')`; nothing assigns to it. -/
def ValueDelimiter : Char := '-'

/-- The function `strconv.Itoa` on a non-negative `int`: the decimal rendering. -/
def Itoa (i : Nat) : String := Nat.repr i

/-- The loop of `appendCipherSuites` from index `index`, `len` being `len(cipherSuites)`. -/
def appendCipherSuitesLoop (len : Nat) : String → Nat → List U16 → String
  | buf, _, [] => buf
  | buf, index, cipherSuite :: rest =>
    let buf := buf ++ Itoa cipherSuite.val
    let buf := if index ≥ len - 1 then buf.push FieldDelimiter else buf.push ValueDelimiter
    appendCipherSuitesLoop len buf (index + 1) rest

/-- The function `appendCipherSuites`. -/
def appendCipherSuites (buf : String) (cipherSuites : List U16) : String :=
  if cipherSuites.length ≤ 0 then buf.push FieldDelimiter
  else appendCipherSuitesLoop cipherSuites.length buf 0 cipherSuites

/-- The loop of `appendExtensionsList` from index `index`, `len` being `len(extensions)`. -/
def appendExtensionsListLoop (len : Nat) : String → Nat → List U16 → String
  | buf, _, [] => buf
  | buf, index, extension :: rest =>
    let buf := buf ++ Itoa extension.val
    let buf := if index ≥ len - 1 then buf.push FieldDelimiter else buf.push ValueDelimiter
    appendExtensionsListLoop len buf (index + 1) rest

/-- The function `appendExtensionsList`. -/
def appendExtensionsList (buf : String) (extensions : List U16) : String :=
  if extensions.length ≤ 0 then buf.push FieldDelimiter
  else appendExtensionsListLoop extensions.length buf 0 extensions

/-- The loop of `appendEllipticCurves` from index `index`, `len` being `len(ellipticCurves)`. -/
def appendEllipticCurvesLoop (len : Nat) : String → Nat → List U16 → String
  | buf, _, [] => buf
  | buf, index, ellipticCurve :: rest =>
    let buf := buf ++ Itoa ellipticCurve.val
    let buf := if index ≥ len - 1 then buf.push FieldDelimiter else buf.push ValueDelimiter
    appendEllipticCurvesLoop len buf (index + 1) rest

/-- The function `appendEllipticCurves`. -/
def appendEllipticCurves (buf : String) (ellipticCurves : List U16) : String :=
  if ellipticCurves.length ≤ 0 then buf.push FieldDelimiter
  else appendEllipticCurvesLoop ellipticCurves.length buf 0 ellipticCurves

/-- The loop of `appendEllipticCurveFormats` from index `index`, `len` being
`len(ellipticCurveFormats)`. -/
def appendEllipticCurveFormatsLoop (len : Nat) : String → Nat → List Byte → String
  | buf, _, [] => buf
  | buf, index, ellipticCurveFormat :: rest =>
    let buf := buf ++ Itoa ellipticCurveFormat.val
    let buf := if index < len - 1 then buf.push ValueDelimiter else buf
    appendEllipticCurveFormatsLoop len buf (index + 1) rest

/-- The function `appendEllipticCurveFormats`. -/
def appendEllipticCurveFormats (buf : String) (ellipticCurveFormats : List Byte) : String :=
  if ellipticCurveFormats.length ≤ 0 then buf
  else appendEllipticCurveFormatsLoop ellipticCurveFormats.length buf 0 ellipticCurveFormats

/-- The method `(*bytes.Buffer).Reset`: the buffer is emptied, whatever it held. -/
def Reset (_buf : String) : String := ""

/-- Lines 30-44 of `MarshalJA3`: the contents of the scratch buffer when it is hashed, `pooled`
being what the buffer taken from `packetBufferPool` held before. -/
def canonicalString (pooled : String) (packet : ParsedClientHello) : String :=
  let buf := Reset pooled
  let sslVersion : Nat :=
    (((packet.TLSVersion.Major.val <<< 8) % 65536) ||| packet.TLSVersion.Minor.val) % 65536
  let buf := buf ++ Itoa sslVersion
  let buf := buf.push FieldDelimiter
  let buf := appendCipherSuites buf packet.CipherSuites
  let buf := appendExtensionsList buf packet.Extensions
  let buf := appendEllipticCurves buf packet.EllipticCurves
  appendEllipticCurveFormats buf packet.EllipticCurveCompressionFormat

/-- The result type `[16]byte` of `md5.Sum`. -/
abbrev Digest := { d : List Byte // d.length = 16 }

/-- The bytes of the buffer, `buf.Bytes()`. -/
def Bytes (buf : String) : List Byte :=
  buf.data.map fun c => ⟨c.toNat % 256, Nat.mod_lt _ (by decide)⟩

/-- The constant `hextable` of `encoding/hex`. -/
def hextable : List Char := "0123456789abcdef".data

/-- The function `hex.EncodeToString`: per byte `v`, `hextable[v>>4]` then `hextable[v&0x0f]`. -/
def EncodeToString (src : List Byte) : String :=
  String.mk (src.flatMap fun v => [hextable.getD (v.val >>> 4) '0', hextable.getD (v.val &&& 0x0f) '0'])

/-- The function `MarshalJA3`. The digest function `md5.Sum` of the Go standard library is the
parameter `md5Sum`, and the pooled scratch buffer is explicit state: `pooled` is its contents
when taken from `packetBufferPool`, and the last component of the result is its contents when it
is put back. The first two components are the results `ja3` and `err`. -/
def MarshalJA3 (md5Sum : List Byte → Digest) (pooled : String) (packet : ParsedClientHello) :
    String × Option GoError × String :=
  let buf := canonicalString pooled packet
  let md5Sum := md5Sum (Bytes buf)
  let hash := EncodeToString md5Sum.val
  (hash, none, buf)

/-! ## Definitions used in the statements

The definitions named `Spec.` follow the words of the specification, or describe the effect of
an accepted record where their doc comment says so; the others are auxiliary. -/

/-- The 16 reserved GREASE code points `0x0A0A, 0x1A1A, ..., 0xFAFA` named by the specification:
both bytes equal and of the form `0x?A`. -/
def Spec.greaseValues : List U16 :=
  [0x0A0A, 0x1A1A, 0x2A2A, 0x3A3A, 0x4A4A, 0x5A5A, 0x6A6A, 0x7A7A,
   0x8A8A, 0x9A9A, 0xAAAA, 0xBABA, 0xCACA, 0xDADA, 0xEAEA, 0xFAFA]

/-- The GREASE test of the parser fails on every element of the list. -/
def NoGrease (l : List U16) : Prop := ∀ v ∈ l, v.val &&& greaseBitmask ≠ 0x0A0A

/-- Section 4.1, step 2: the 24-bit big-endian length `L` held by bytes 1 to 3 of the message. -/
def Spec.handshakeLength (bs : List Byte) : Nat :=
  (bs.getD 1 0).val * 65536 + (bs.getD 2 0).val * 256 + (bs.getD 3 0).val

/-- Section 4.1, step 2: the handshake body, the `L` bytes that follow the 4-byte header. -/
def Spec.handshakeBody (bs : List Byte) : List Byte :=
  (bs.drop 4).take (Spec.handshakeLength bs)

/-- Section 4.1, step 5: the session-id length `S`, the byte of the body that follows the two
version bytes and the 32 bytes of client random. -/
def Spec.sessionIdLength (body : List Byte) : Nat :=
  (body.getD 34 0).val

/-- Section 4.1, step 6: the cipher-suite-list byte length `C`, the big-endian value of the two
bytes that follow the session id. -/
def Spec.cipherSuitesLength (body : List Byte) : Nat :=
  (body.getD (35 + Spec.sessionIdLength body) 0).val * 256
    + (body.getD (36 + Spec.sessionIdLength body) 0).val

/-- Section 4.1, step 6: the cipher-suite list, the `C` bytes that follow the length `C`. -/
def Spec.cipherSuiteList (body : List Byte) : List Byte :=
  (body.drop (37 + Spec.sessionIdLength body)).take (Spec.cipherSuitesLength body)

/-- Section 4.1, step 7: where the two compression bytes are, after the `C/2` cipher suites. -/
def Spec.compressionOffset (body : List Byte) : Nat :=
  37 + Spec.sessionIdLength body + 2 * (Spec.cipherSuitesLength body / 2)

/-- Section 4.1, step 8: the extensions byte length `E`, the big-endian value of the two bytes
that follow the two compression bytes. -/
def Spec.extensionsLength (body : List Byte) : Nat :=
  (body.getD (Spec.compressionOffset body + 2) 0).val * 256
    + (body.getD (Spec.compressionOffset body + 3) 0).val

/-- Section 4.1, step 8: the extensions block, the `E` bytes that follow the length `E`. -/
def Spec.extensionsBlock (body : List Byte) : List Byte :=
  (body.drop (Spec.compressionOffset body + 4)).take (Spec.extensionsLength body)

/-- Section 4.1, step 9: the bytes of one TLV record, a 2-byte big-endian `extensionType`, a
2-byte big-endian `contentLength`, then the `contentLength` bytes of content. -/
def Spec.encodeRecord (r : U16 × List Byte) : List Byte :=
  [⟨r.1.val / 256 % 256, Nat.mod_lt _ (by decide)⟩, ⟨r.1.val % 256, Nat.mod_lt _ (by decide)⟩,
   ⟨r.2.length / 256 % 256, Nat.mod_lt _ (by decide)⟩, ⟨r.2.length % 256, Nat.mod_lt _ (by decide)⟩]
    ++ r.2

/-- Section 4.1, step 9: the bytes of a sequence of TLV records. -/
def Spec.encodeRecords (rs : List (U16 × List Byte)) : List Byte :=
  rs.flatMap Spec.encodeRecord

/-- A 16-byte digest function used where a theorem about every digest function is applied to a
concrete one: the first 16 bytes of the input, padded with zeros. -/
def sampleDigest (bs : List Byte) : Digest :=
  ⟨(List.range 16).map (fun i => bs.getD i 0), by simp⟩

/-- Section 4.1, steps 3 to 7: the fields decoded from the body before the extensions, the
version from bytes 0 and 1, the `C/2` cipher suites, and the two compression bytes. -/
def Spec.fixedFields (body : List Byte) : ParsedClientHello :=
  { TLSVersion := { Major := body.getD 0 0, Minor := body.getD 1 0 },
    CipherSuites := (List.range (Spec.cipherSuitesLength body / 2)).map (fun i =>
      bigEndianUint16 (body.getD (37 + Spec.sessionIdLength body + 2 * i) 0)
        (body.getD (37 + Spec.sessionIdLength body + 2 * i + 1) 0)),
    Compression := { Method := body.getD (Spec.compressionOffset body) 0,
                     Type_ := body.getD (Spec.compressionOffset body + 1) 0 } }

/-- The declared list byte length of a supported-groups content: the big-endian value of its
first two bytes. -/
def Spec.groupsListLength (content : List Byte) : Nat :=
  (content.getD 0 0).val * 256 + (content.getD 1 0).val

/-- Section 4.1, step 9, as worded there for a supported-groups content: all the consecutive
pairs of the bytes that remain after the first two, as big-endian identifiers, without those
that pass the GREASE test. The declared list length plays no part. -/
def Spec.allCurvePairs (content : List Byte) : List U16 :=
  ((List.range ((content.length - 2) / 2)).map fun i =>
      bigEndianUint16 (content.getD (2 + 2 * i) 0) (content.getD (2 + 2 * i + 1) 0)).filter
    (fun v => v.val &&& 0x0F0F != 0x0A0A)

/-- The curves of a supported-groups content when the declared list length `D` limits them: the
first `D / 2` consecutive pairs of the bytes after the first two, as big-endian identifiers,
without those that pass the GREASE test. -/
def Spec.declaredCurves (content : List Byte) : List U16 :=
  ((List.range (Spec.groupsListLength content / 2)).map fun i =>
      bigEndianUint16 (content.getD (2 + 2 * i) 0) (content.getD (2 + 2 * i + 1) 0)).filter
    (fun v => v.val &&& 0x0F0F != 0x0A0A)

/-- Section 4.1, step 9, for an EC-point-formats content: the `N` bytes that follow the count
byte `N`. -/
def Spec.formatsOf (content : List Byte) : List Byte :=
  (content.drop 1).take (content.getD 0 0).val

/-- A TLV record that the extension rules accept: a server-name content has at least 5 bytes
and a zero byte at index 3; a supported-groups content holds its two length bytes and the
`D / 2` pairs they declare; an EC-point-formats content has at least 2 bytes and holds the `N`
bytes its count byte declares. Any other record is accepted. -/
def Spec.wellFormedRecord (r : U16 × List Byte) : Prop :=
  (r.1 = 0 → 5 ≤ r.2.length ∧ r.2.getD 3 0 = 0)
    ∧ (r.1 = 10 → 2 + 2 * (Spec.groupsListLength r.2 / 2) ≤ r.2.length)
    ∧ (r.1 = 11 → 2 ≤ r.2.length ∧ 1 + (r.2.getD 0 0).val ≤ r.2.length)

instance (r : U16 × List Byte) : Decidable (Spec.wellFormedRecord r) := by
  unfold Spec.wellFormedRecord
  infer_instance

/-- Section 4.1, step 9, first item: the record type is appended to `Extensions` unless it
passes the GREASE test. -/
def Spec.appendType (p : ParsedClientHello) (t : U16) : ParsedClientHello :=
  if t.val &&& 0x0F0F ≠ 0x0A0A then { p with Extensions := p.Extensions ++ [t] } else p

/-- The effect of the content of one accepted TLV record: a server-name content sets `SNI` to
its bytes from index 5; a supported-groups content sets `EllipticCurves` to its declared curves;
an EC-point-formats content appends its formats; any other content changes nothing. -/
def Spec.applyContents (p : ParsedClientHello) (r : U16 × List Byte) : ParsedClientHello :=
  if r.1 = 0 then { p with SNI := r.2.drop 5 }
  else if r.1 = 10 then { p with EllipticCurves := Spec.declaredCurves r.2 }
  else if r.1 = 11 then
    { p with EllipticCurveCompressionFormat :=
        p.EllipticCurveCompressionFormat ++ Spec.formatsOf r.2 }
  else p

/-- The effect of one accepted TLV record on the structure being built. -/
def Spec.applyRecord (p : ParsedClientHello) (r : U16 × List Byte) : ParsedClientHello :=
  Spec.applyContents (Spec.appendType p r.1) r

/-- The effect of a sequence of accepted TLV records, in wire order. -/
def Spec.applyRecords (p : ParsedClientHello) (rs : List (U16 × List Byte)) :
    ParsedClientHello :=
  rs.foldl Spec.applyRecord p

/-- The point formats contributed by a sequence of TLV records: those of its EC-point-formats
records (type 11), in wire order. -/
def Spec.formatsOfRecords (rs : List (U16 × List Byte)) : List Byte :=
  rs.flatMap fun r => if r.1 = 11 then Spec.formatsOf r.2 else []

/-- The number that a list of decimal digit characters denotes; a left inverse of the decimal
rendering `Itoa`. -/
def decimalValue (l : List Char) : Nat :=
  l.foldl (fun a c => 10 * a + (c.toNat - 48)) 0

/-- The lowercase hexadecimal encoding of a byte sequence, in the words of the specification:
each byte as two digits of `0123456789abcdef`, the digit of `b / 16` and then the digit of
`b % 16`. -/
def Spec.lowercaseHex (bs : List Byte) : String :=
  String.mk (bs.flatMap fun b => [Nat.digitChar (b.val / 16), Nat.digitChar (b.val % 16)])

/-! ## Arithmetic of the byte combinators -/

theorem shl8_or (hi lo : Nat) (h : lo < 256) : (hi <<< 8) ||| lo = hi * 256 + lo := by
  have h2 : lo < 2 ^ 8 := by simpa using h
  rw [Nat.shiftLeft_eq, Nat.mul_comm, ← Nat.mul_add_lt_is_or h2 hi, Nat.mul_comm]

theorem bigEndianUint16_val (b0 b1 : Byte) : (bigEndianUint16 b0 b1).val = b0.val * 256 + b1.val := by
  have h0 := b0.isLt
  have h1 := b1.isLt
  simp only [bigEndianUint16]
  rw [Nat.or_comm, shl8_or _ _ h1]
  omega

/-! ## The canonical string -/

theorem intercalate_go_append (s x acc : String) (l : List String) :
    String.intercalate.go (x ++ acc) s l = x ++ String.intercalate.go acc s l := by
  induction l generalizing acc with
  | nil => rfl
  | cons a l ih =>
    simp only [String.intercalate.go]
    rw [String.append_assoc, String.append_assoc, ih, String.append_assoc]

theorem intercalate_cons_cons (s a b : String) (l : List String) :
    s.intercalate (a :: b :: l) = a ++ s ++ s.intercalate (b :: l) := by
  simp only [String.intercalate, String.intercalate.go]
  rw [intercalate_go_append]

theorem push_eq_append (s : String) (c : Char) : s.push c = s ++ String.singleton c := by
  apply String.ext
  simp [String.singleton]

/-- The loop shared by the three terminated fields: values joined by `-`, then a `,`. -/
theorem appendCipherSuitesLoop_eq (len : Nat) (l : List U16) :
    ∀ (buf : String) (index : Nat), l ≠ [] → index + l.length = len →
      appendCipherSuitesLoop len buf index l =
        buf ++ "-".intercalate (l.map fun v => Itoa v.val) ++ "," := by
  induction l with
  | nil => intro _ _ h; exact absurd rfl h
  | cons x rest ih =>
    intro buf index _ hlen
    cases rest with
    | nil =>
      simp only [List.length_cons, List.length_nil] at hlen
      have hge : index ≥ len - 1 := by omega
      simp only [appendCipherSuitesLoop, hge, if_true, List.map, String.intercalate,
        String.intercalate.go, push_eq_append]
      rfl
    | cons y rest2 =>
      simp only [List.length_cons] at hlen
      have hlt : ¬ index ≥ len - 1 := by omega
      have hrec := ih ((buf ++ Itoa x.val).push ValueDelimiter) (index + 1) (by simp)
        (by simp only [List.length_cons]; omega)
      rw [appendCipherSuitesLoop]
      simp only [hlt, if_false]
      rw [hrec]
      simp only [List.map, intercalate_cons_cons, push_eq_append, String.append_assoc]
      rfl

theorem appendExtensionsListLoop_eq_cipher (len : Nat) (l : List U16) :
    ∀ (buf : String) (index : Nat),
      appendExtensionsListLoop len buf index l = appendCipherSuitesLoop len buf index l := by
  induction l with
  | nil => intro _ _; rfl
  | cons x rest ih =>
    intro buf index
    simp only [appendExtensionsListLoop, appendCipherSuitesLoop]
    exact ih _ _

theorem appendEllipticCurvesLoop_eq_cipher (len : Nat) (l : List U16) :
    ∀ (buf : String) (index : Nat),
      appendEllipticCurvesLoop len buf index l = appendCipherSuitesLoop len buf index l := by
  induction l with
  | nil => intro _ _; rfl
  | cons x rest ih =>
    intro buf index
    simp only [appendEllipticCurvesLoop, appendCipherSuitesLoop]
    exact ih _ _

theorem appendCipherSuites_eq (buf : String) (l : List U16) :
    appendCipherSuites buf l = buf ++ "-".intercalate (l.map fun v => Itoa v.val) ++ "," := by
  cases l with
  | nil =>
    simp only [appendCipherSuites, List.length_nil, Nat.le_refl, if_true, List.map,
      String.intercalate, push_eq_append, String.append_empty]
    rfl
  | cons x rest =>
    have h : ¬ (x :: rest).length ≤ 0 := by simp
    simp only [appendCipherSuites, h, if_false]
    exact appendCipherSuitesLoop_eq _ _ buf 0 (by simp) (by simp)

theorem appendExtensionsList_eq (buf : String) (l : List U16) :
    appendExtensionsList buf l = buf ++ "-".intercalate (l.map fun v => Itoa v.val) ++ "," := by
  rw [← appendCipherSuites_eq]
  simp only [appendExtensionsList, appendCipherSuites, appendExtensionsListLoop_eq_cipher]

theorem appendEllipticCurves_eq (buf : String) (l : List U16) :
    appendEllipticCurves buf l = buf ++ "-".intercalate (l.map fun v => Itoa v.val) ++ "," := by
  rw [← appendCipherSuites_eq]
  simp only [appendEllipticCurves, appendCipherSuites, appendEllipticCurvesLoop_eq_cipher]

theorem appendEllipticCurveFormatsLoop_eq (len : Nat) (l : List Byte) :
    ∀ (buf : String) (index : Nat), l ≠ [] → index + l.length = len →
      appendEllipticCurveFormatsLoop len buf index l =
        buf ++ "-".intercalate (l.map fun v => Itoa v.val) := by
  induction l with
  | nil => intro _ _ h; exact absurd rfl h
  | cons x rest ih =>
    intro buf index _ hlen
    cases rest with
    | nil =>
      simp only [List.length_cons, List.length_nil] at hlen
      have hge : ¬ index < len - 1 := by omega
      simp only [appendEllipticCurveFormatsLoop, hge, if_false, List.map, String.intercalate,
        String.intercalate.go]
    | cons y rest2 =>
      simp only [List.length_cons] at hlen
      have hlt : index < len - 1 := by omega
      have hrec := ih ((buf ++ Itoa x.val).push ValueDelimiter) (index + 1) (by simp)
        (by simp only [List.length_cons]; omega)
      rw [appendEllipticCurveFormatsLoop]
      simp only [hlt, if_true]
      rw [hrec]
      simp only [List.map, intercalate_cons_cons, push_eq_append, String.append_assoc]
      rfl

theorem appendEllipticCurveFormats_eq (buf : String) (l : List Byte) :
    appendEllipticCurveFormats buf l = buf ++ "-".intercalate (l.map fun v => Itoa v.val) := by
  cases l with
  | nil => simp [appendEllipticCurveFormats, String.intercalate]
  | cons x rest =>
    have h : ¬ (x :: rest).length ≤ 0 := by simp
    simp only [appendEllipticCurveFormats, h, if_false]
    exact appendEllipticCurveFormatsLoop_eq _ _ buf 0 (by simp) (by simp)

theorem sslVersion_eq (major minor : Byte) :
    (((major.val <<< 8) % 65536) ||| minor.val) % 65536 = 256 * major.val + minor.val := by
  have h0 := major.isLt
  have h1 := minor.isLt
  have hs : major.val <<< 8 = major.val * 256 := by rw [Nat.shiftLeft_eq]
  have hm : (major.val <<< 8) % 65536 = major.val <<< 8 := by
    rw [hs]; exact Nat.mod_eq_of_lt (by omega)
  rw [hm, shl8_or _ _ h1]
  omega

theorem canonicalString_join (pooled : String) (p : ParsedClientHello) :
    canonicalString pooled p =
      Itoa (256 * p.TLSVersion.Major.val + p.TLSVersion.Minor.val) ++ ","
        ++ "-".intercalate (p.CipherSuites.map fun v => Itoa v.val) ++ ","
        ++ "-".intercalate (p.Extensions.map fun v => Itoa v.val) ++ ","
        ++ "-".intercalate (p.EllipticCurves.map fun v => Itoa v.val) ++ ","
        ++ "-".intercalate (p.EllipticCurveCompressionFormat.map fun v => Itoa v.val) := by
  simp only [canonicalString, appendEllipticCurveFormats_eq, appendEllipticCurves_eq,
    appendExtensionsList_eq, appendCipherSuites_eq, sslVersion_eq, push_eq_append, Reset,
    String.empty_append]
  rfl

/-- C1: the string that `MarshalJA3` hashes is the decimal version `256 * Major + Minor`, then
`,`, then the decimal cipher suites joined by `-`, then `,`, the extensions likewise, then `,`,
the curves likewise, then `,`, then the point formats joined by `-` with nothing after them.
The join of an empty list is the empty string, so each of the first three lists contributes its
`,` even when empty, and an empty list of point formats contributes nothing. -/
theorem canonicalString_eq (pooled : String) (p : ParsedClientHello) :
    canonicalString pooled p =
      Itoa (256 * p.TLSVersion.Major.val + p.TLSVersion.Minor.val) ++ ","
        ++ "-".intercalate (p.CipherSuites.map fun v => Itoa v.val) ++ ","
        ++ "-".intercalate (p.Extensions.map fun v => Itoa v.val) ++ ","
        ++ "-".intercalate (p.EllipticCurves.map fun v => Itoa v.val) ++ ","
        ++ "-".intercalate (p.EllipticCurveCompressionFormat.map fun v => Itoa v.val) :=
  canonicalString_join pooled p

/-! ## Behaviour on concrete messages

All the messages below share the prefix `01 LLLLLL 0303 <32 random bytes 00..1f> 00`: handshake
type, 24-bit length, version (3,3), client random, and an empty session id. -/

/-- C2: extension contents are read out of range. Each of these well-formed hexadecimal inputs
makes `ParseClientHello` panic instead of returning a decode failure: a server-name extension
with empty content (`contents[3]`), one with four zero bytes of content (`contents[5:]`), a
supported-groups extension with one byte of content (`contents[1]`), one declaring a list of 4
bytes with only 2 present (`supportedCurves[2]`), and a point-formats extension whose count 2
exceeds the single byte that follows (`compressions[1]`). -/
theorem parse_panics_on_short_extension_content :
    ParseClientHello
        "0100002f0303000102030405060708090a0b0c0d0e0f101112131415161718191a1b1c1d1e1f00000213010100000400000000"
      = .error (.panic (.indexOutOfRange 3 0))
    ∧ ParseClientHello
        "010000330303000102030405060708090a0b0c0d0e0f101112131415161718191a1b1c1d1e1f0000021301010000080000000400000000"
      = .error (.panic (.sliceBoundsOutOfRange 5 4))
    ∧ ParseClientHello
        "010000300303000102030405060708090a0b0c0d0e0f101112131415161718191a1b1c1d1e1f000002130101000005000a000100"
      = .error (.panic (.indexOutOfRange 1 1))
    ∧ ParseClientHello
        "010000330303000102030405060708090a0b0c0d0e0f101112131415161718191a1b1c1d1e1f000002130101000008000a00040004001d"
      = .error (.panic (.indexOutOfRange 2 2))
    ∧ ParseClientHello
        "010000310303000102030405060708090a0b0c0d0e0f101112131415161718191a1b1c1d1e1f000002130101000006000b00020200"
      = .error (.panic (.indexOutOfRange 1 1)) := by
  refine ⟨?_, ?_, ?_, ?_, ?_⟩ <;> decide

/-- C3: a truncated message is accepted. The first input is a complete message of 4 + 47 bytes
(cipher suite 0x1301, one empty extension of type 23). The second is its proper prefix of 4 + 45
bytes, whose declared length 47 exceeds the 45 bytes that follow the header: `ParseClientHello`
pads the body with zeros and returns the same structure and a nil error. -/
theorem parse_accepts_truncated_message :
    ParseClientHello
        "0100002f0303000102030405060708090a0b0c0d0e0f101112131415161718191a1b1c1d1e1f00000213010100000400170000"
      = .ok { TLSVersion := { Major := 3, Minor := 3 }, CipherSuites := [0x1301],
              Compression := { Method := 1, Type_ := 0 }, Extensions := [23] }
    ∧ ParseClientHello
        "0100002f0303000102030405060708090a0b0c0d0e0f101112131415161718191a1b1c1d1e1f0000021301010000040017"
      = .ok { TLSVersion := { Major := 3, Minor := 3 }, CipherSuites := [0x1301],
              Compression := { Method := 1, Type_ := 0 }, Extensions := [23] } := by
  refine ⟨?_, ?_⟩ <;> decide

/-- C4: lengths declared inside the body are not checked against the bytes that remain. In the
first input the body (45 bytes, all present) declares an extensions length of 4 with only the 2
bytes `00 17` remaining; in the second the only extension record (type 23) declares 4 bytes of
content with only the byte `aa` remaining. In both `ParseClientHello` fills the missing bytes
with zeros and returns a structure and a nil error. -/
theorem parse_accepts_overlong_inner_lengths :
    ParseClientHello
        "0100002d0303000102030405060708090a0b0c0d0e0f101112131415161718191a1b1c1d1e1f0000021301010000040017"
      = .ok { TLSVersion := { Major := 3, Minor := 3 }, CipherSuites := [0x1301],
              Compression := { Method := 1, Type_ := 0 }, Extensions := [23] }
    ∧ ParseClientHello
        "010000300303000102030405060708090a0b0c0d0e0f101112131415161718191a1b1c1d1e1f00000213010100000500170004aa"
      = .ok { TLSVersion := { Major := 3, Minor := 3 }, CipherSuites := [0x1301],
              Compression := { Method := 1, Type_ := 0 }, Extensions := [23] } := by
  refine ⟨?_, ?_⟩ <;> decide

/-- C5: the ClientHello with version (3,3), cipher suites 0x1301 and 0x1302, and the extensions
server name "example.com", supported groups [0x001d] and point formats [0x00] is parsed
successfully, and the string `MarshalJA3` hashes for the result is
`771,4865-4866,0-10-11,29,0`, whatever the pooled buffer held. -/
theorem end_to_end_canonical_string (pooled : String) :
    ∃ p, ParseClientHello
        "0100004f0303000102030405060708090a0b0c0d0e0f101112131415161718191a1b1c1d1e1f000004130113020100002200000010000e00000b6578616d706c652e636f6d000a00040002001d000b00020100"
        = .ok p
      ∧ p.TLSVersion = { Major := 3, Minor := 3 }
      ∧ p.CipherSuites = [0x1301, 0x1302]
      ∧ p.Extensions = [0x0000, 0x000a, 0x000b]
      ∧ p.SNI = "example.com".data.map (fun c => ⟨c.toNat % 256, Nat.mod_lt _ (by decide)⟩)
      ∧ p.EllipticCurves = [0x001d]
      ∧ p.EllipticCurveCompressionFormat = [0x00]
      ∧ canonicalString pooled p = "771,4865-4866,0-10-11,29,0" := by
  refine ⟨{ TLSVersion := { Major := 3, Minor := 3 }, CipherSuites := [0x1301, 0x1302],
            Compression := { Method := 1, Type_ := 0 }, Extensions := [0, 10, 11],
            SNI := [101, 120, 97, 109, 112, 108, 101, 46, 99, 111, 109],
            EllipticCurves := [29], EllipticCurveCompressionFormat := [0] },
          by decide, rfl, rfl, rfl, by decide, rfl, rfl, ?_⟩
  rw [canonicalString_join]
  decide

/-! ## The hexadecimal encoding -/

theorem hextable_getD_mem (n : Nat) : hextable.getD n '0' ∈ "0123456789abcdef".data := by
  by_cases h : n < 16
  · interval_cases n <;> decide
  · have hlen : hextable.length ≤ n := by simp [hextable]; omega
    rw [List.getD_eq_default _ _ hlen]
    decide

theorem EncodeToString_length (src : List Byte) : (EncodeToString src).length = 2 * src.length := by
  simp only [EncodeToString, String.length]
  induction src with
  | nil => rfl
  | cons v rest ih => simp only [List.flatMap_cons, List.length_append, List.length_cons,
      List.length_nil, ih]; omega

theorem EncodeToString_mem (src : List Byte) :
    ∀ c ∈ (EncodeToString src).data, c ∈ "0123456789abcdef".data := by
  intro c hc
  simp only [EncodeToString, List.mem_flatMap, List.mem_cons, List.mem_singleton] at hc
  obtain ⟨v, _, hv⟩ := hc
  rcases hv with h | h | h
  · rw [h]; exact hextable_getD_mem _
  · rw [h]; exact hextable_getD_mem _
  · simp at h

/-! ## The GREASE test -/

theorem and_div_256 (a b : Nat) : (a &&& b) / 256 = (a / 256) &&& (b / 256) := by
  have h : ∀ x : Nat, x / 256 = x / 2 / 2 / 2 / 2 / 2 / 2 / 2 / 2 := fun x => by omega
  rw [h (a &&& b), h a, h b]
  simp only [Nat.and_div_two]

theorem and_15 (x : Nat) : x &&& 15 = x % 16 :=
  Nat.and_pow_two_sub_one_eq_mod x 4

theorem and_255 (x : Nat) : x &&& 255 = x % 256 :=
  Nat.and_pow_two_sub_one_eq_mod x 8

/-- The test `v & 0x0F0F == 0x0A0A` looks at the low nibble of each byte only. -/
theorem grease_test_iff (v : Nat) :
    v &&& greaseBitmask = 0x0A0A ↔ (v % 16 = 10 ∧ v / 256 % 16 = 10) := by
  have hdiv : (v &&& greaseBitmask) / 256 = v / 256 % 16 := by
    rw [and_div_256, ← and_15]; rfl
  have hmod : (v &&& greaseBitmask) % 256 = v % 16 := by
    rw [← and_255, Nat.and_assoc, ← and_15]; rfl
  constructor
  · intro h
    rw [h] at hdiv hmod
    omega
  · intro h
    omega

/-! ## Invariants of the extensions loop -/

theorem NoGrease_append_singleton {l : List U16} {v : U16} (hl : NoGrease l)
    (hv : v.val &&& greaseBitmask ≠ 0x0A0A) : NoGrease (l ++ [v]) := by
  intro w hw
  rcases List.mem_append.mp hw with hw | hw
  · exact hl w hw
  · simp only [List.mem_singleton] at hw
    subst hw
    exact hv

theorem curvesLoop_noGrease (sc : List Byte) :
    ∀ (n i : Nat) (acc r : List U16), NoGrease acc → curvesLoop sc n i acc = .ok r → NoGrease r := by
  intro n
  induction n with
  | zero =>
    intro i acc r hacc h
    simp only [curvesLoop] at h
    cases h
    exact hacc
  | succ n ih =>
    intro i acc r hacc h
    simp only [curvesLoop, bind, Except.bind] at h
    split at h
    · cases h
    · split at h
      · cases h
      · split at h
        · exact ih _ _ _ (NoGrease_append_singleton hacc (by assumption)) h
        · exact ih _ _ _ hacc h

/-- What one extension leaves unchanged, and what it keeps true. -/
theorem parseExtensionContents_frame {t : U16} {c : List Byte} {p q : ParsedClientHello}
    (h : parseExtensionContents t c p = .ok q) :
    q.TLSVersion = p.TLSVersion ∧ q.CipherSuites = p.CipherSuites ∧ q.Compression = p.Compression
      ∧ q.Extensions = p.Extensions ∧ (NoGrease p.EllipticCurves → NoGrease q.EllipticCurves) := by
  unfold parseExtensionContents at h
  simp only [bind, Except.bind, pure, Except.pure, throw, throwThe, MonadExceptOf.throw] at h
  split at h
  · split at h
    · cases h
    · split at h
      · cases h
      · split at h
        · cases h
        · cases h
          exact ⟨rfl, rfl, rfl, rfl, fun x => x⟩
  · split at h
    · split at h
      · cases h
      · split at h
        · cases h
        · split at h
          · cases h
          · split at h
            · cases h
            · cases h
              refine ⟨rfl, rfl, rfl, rfl, fun _ => ?_⟩
              exact curvesLoop_noGrease _ _ _ _ _ (fun _ hv => absurd hv (List.not_mem_nil _))
                (by assumption)
    · split at h
      · split at h
        · cases h
        · split at h
          · cases h
          · split at h
            · cases h
            · split at h
              · cases h
              · cases h
                exact ⟨rfl, rfl, rfl, rfl, fun x => x⟩
      · cases h
        exact ⟨rfl, rfl, rfl, rfl, fun x => x⟩

theorem extensionsLoop_frame :
    ∀ (fuel : Nat) (buf : List Byte) (p q : ParsedClientHello),
      extensionsLoop fuel buf p = .ok q →
        q.TLSVersion = p.TLSVersion ∧ q.CipherSuites = p.CipherSuites
          ∧ q.Compression = p.Compression
          ∧ (NoGrease p.Extensions → NoGrease q.Extensions)
          ∧ (NoGrease p.EllipticCurves → NoGrease q.EllipticCurves) := by
  intro fuel
  induction fuel with
  | zero =>
    intro buf p q h
    simp only [extensionsLoop] at h
    split at h
    · cases h
    · cases h
      exact ⟨rfl, rfl, rfl, fun x => x, fun x => x⟩
  | succ fuel ih =>
    intro buf p q h
    simp only [extensionsLoop] at h
    split at h
    · split at h
      · cases h
      · split at h
        · cases h
        · split at h
          · cases h
          · split at h
            · cases h
            · rename_i hpe
              obtain ⟨h1, h2, h3, h4, h5⟩ := parseExtensionContents_frame hpe
              obtain ⟨k1, k2, k3, k4, k5⟩ := ih _ _ _ h
              refine ⟨?_, ?_, ?_, ?_, ?_⟩
              · rw [k1, h1]; split <;> rfl
              · rw [k2, h2]; split <;> rfl
              · rw [k3, h3]; split <;> rfl
              · intro hp
                apply k4
                rw [h4]
                split
                · exact NoGrease_append_singleton hp (by assumption)
                · exact hp
              · intro hp
                apply k5
                apply h5
                split
                · exact hp
                · exact hp
    · cases h
      exact ⟨rfl, rfl, rfl, fun x => x, fun x => x⟩

/-! ## Reading from a suffix of the body -/


theorem drop_cons_inv {l : List Byte} {k : Nat} {b : Byte} {r : List Byte}
    (h : l.drop k = b :: r) : k < l.length ∧ l.getD k 0 = b ∧ r = l.drop (k + 1) := by
  have hk : k < l.length := by
    by_contra hc
    rw [List.drop_eq_nil_iff.mpr (by omega)] at h
    cases h
  refine ⟨hk, ?_, ?_⟩
  · rw [List.drop_eq_getElem_cons hk] at h
    injection h with h1 h2
    rw [List.getD_eq_getElem _ _ hk]
    exact h1
  · rw [← List.drop_drop, h]
    rfl

theorem ReadByte_drop {l : List Byte} {k : Nat} {b : Byte} {r : List Byte}
    (h : ReadByte (l.drop k) = .ok (b, r)) :
    k < l.length ∧ b = l.getD k 0 ∧ r = l.drop (k + 1) := by
  unfold ReadByte at h
  split at h
  · cases h
  · rename_i b2 r2 heq
    cases h
    obtain ⟨h1, h2, h3⟩ := drop_cons_inv heq
    exact ⟨h1, h2.symm, h3⟩

theorem Read_inv {buf : List Byte} {n m : Nat} {d rest : List Byte}
    (h : Read buf n = .ok (d, m, rest)) :
    m = min n buf.length ∧ rest = buf.drop m
      ∧ d = buf.take m ++ List.replicate (n - m) 0 ∧ (buf = [] → n = 0) := by
  unfold Read at h
  split at h
  · split at h
    · cases h
      rename_i hn
      subst hn
      simp
    · cases h
  · cases h
    simp

theorem binaryReadUint16_inv {buf rest : List Byte} {v : U16}
    (h : binaryReadUint16 buf = (.ok v, rest)) :
    ∃ b0 b1, buf = b0 :: b1 :: rest ∧ v = bigEndianUint16 b0 b1 := by
  unfold binaryReadUint16 at h
  split at h
  · cases h
  · cases h
  · rename_i b0 b1 r
    cases h
    exact ⟨b0, b1, rfl, rfl⟩

theorem binaryReadUint16_drop {l rest : List Byte} {k : Nat} {v : U16}
    (h : binaryReadUint16 (l.drop k) = (.ok v, rest)) :
    k + 2 ≤ l.length ∧ v = bigEndianUint16 (l.getD k 0) (l.getD (k + 1) 0)
      ∧ rest = l.drop (k + 2) := by
  obtain ⟨b0, b1, hb, hv⟩ := binaryReadUint16_inv h
  obtain ⟨h1, h2, h3⟩ := drop_cons_inv hb
  obtain ⟨h4, h5, h6⟩ := drop_cons_inv h3.symm
  exact ⟨by omega, by rw [h2, h5]; exact hv, h6⟩

theorem readCipherSuites_nil (n : Nat) : ∀ acc, (readCipherSuites n [] acc).2 = [] := by
  induction n with
  | zero => intro acc; rfl
  | succ n ih => intro acc; simp only [readCipherSuites, binaryReadUint16]; exact ih _

theorem readCipherSuites_spec (n : Nat) :
    ∀ (buf : List Byte) (acc : List U16), (readCipherSuites n buf acc).2 ≠ [] →
      (readCipherSuites n buf acc).2 = buf.drop (2 * n)
        ∧ (readCipherSuites n buf acc).1 = acc ++ (List.range n).map
            (fun i => bigEndianUint16 (buf.getD (2 * i) 0) (buf.getD (2 * i + 1) 0)) := by
  induction n with
  | zero => intro buf acc _; simp [readCipherSuites]
  | succ n ih =>
    intro buf acc hne
    match buf, hne with
    | [], hne => exact absurd (readCipherSuites_nil _ _) hne
    | [b], hne =>
      simp only [readCipherSuites, binaryReadUint16] at hne
      exact absurd (readCipherSuites_nil _ _) hne
    | b0 :: b1 :: rest, hne =>
      simp only [readCipherSuites, binaryReadUint16] at hne ⊢
      obtain ⟨h1, h2⟩ := ih rest _ hne
      refine ⟨?_, ?_⟩
      · rw [h1]
        have : 2 * (n + 1) = 2 * n + 1 + 1 := by omega
        rw [this]
        rfl
      · rw [h2, List.range_succ_eq_map, List.map_cons, List.map_map, List.append_assoc]
        congr 1

theorem getD_drop (l : List Byte) (k i : Nat) : (l.drop k).getD i 0 = l.getD (k + i) 0 := by
  rw [List.getD_eq_getElem?_getD, List.getD_eq_getElem?_getD, List.getElem?_drop]

theorem Read_data {buf : List Byte} {n m : Nat} {d rest : List Byte}
    (h : Read buf n = .ok (d, m, rest)) :
    d = buf.take n ++ List.replicate (n - buf.length) 0 ∧ d.length = n := by
  unfold Read at h
  split at h
  · split at h
    · cases h
      rename_i hn
      subst hn
      simp
    · cases h
  · cases h
    rename_i b r
    generalize b :: r = l
    rcases Nat.le_total n l.length with hle | hle
    · rw [Nat.min_eq_left hle, Nat.sub_self, Nat.sub_eq_zero_of_le hle]
      simp [List.length_take, Nat.min_eq_left hle]
    · rw [Nat.min_eq_right hle, List.take_of_length_le (Nat.le_refl _), List.take_of_length_le hle]
      simp
      omega

theorem parseClientHelloPacket_inv {body : List Byte} {p : ParsedClientHello}
    (h : parseClientHelloPacket body = .ok p) :
    Spec.compressionOffset body + 4 < body.length
      ∧ Spec.extensionsLength body ≠ 0
      ∧ extensionsLoop (Spec.extensionsLength body)
          ((body.drop (Spec.compressionOffset body + 4)).take (Spec.extensionsLength body)
            ++ List.replicate
              (Spec.extensionsLength body - (body.length - (Spec.compressionOffset body + 4))) 0)
          { TLSVersion := { Major := body.getD 0 0, Minor := body.getD 1 0 },
            CipherSuites := (List.range (Spec.cipherSuitesLength body / 2)).map (fun i =>
              bigEndianUint16 (body.getD (37 + Spec.sessionIdLength body + 2 * i) 0)
                (body.getD (37 + Spec.sessionIdLength body + 2 * i + 1) 0)),
            Compression := { Method := body.getD (Spec.compressionOffset body) 0,
                             Type_ := body.getD (Spec.compressionOffset body + 1) 0 } }
          = .ok p := by
  unfold parseClientHelloPacket at h
  split at h
  · cases h
  rename_i maj buf1 h1
  obtain ⟨l1, rfl, rfl⟩ := @ReadByte_drop body 0 _ _ h1
  split at h
  · cases h
  rename_i min buf2 h2
  obtain ⟨l2, rfl, rfl⟩ := @ReadByte_drop body 1 _ _ h2
  simp only at h
  split at h
  · cases h
  rename_i d3 n3 buf3 h3
  obtain ⟨hn3, rfl, -, -⟩ := Read_inv h3
  split at h
  · cases h
  rename_i hn32
  have e3 : n3 = 32 := by omega
  subst e3
  rw [List.drop_drop] at h
  have l3 : 34 ≤ body.length := by
    simp only [List.length_drop] at hn3
    omega
  split at h
  · cases h
  rename_i S buf4 h4
  obtain ⟨l4, rfl, rfl⟩ := ReadByte_drop h4
  split at h
  · cases h
  rename_i d5 n5 buf5 h5
  obtain ⟨hn5, rfl, -, -⟩ := Read_inv h5
  split at h
  · cases h
  rename_i hn5b
  have e5 : n5 = (body.getD (1 + 1 + 32) 0).val := by omega
  subst e5
  rw [List.drop_drop] at h
  split at h
  · cases h
  rename_i C buf6 h6
  obtain ⟨l6, rfl, rfl⟩ := binaryReadUint16_drop h6
  split at h
  · cases h
  rename_i cm buf8 h8
  have hne : (readCipherSuites ((bigEndianUint16 (body.getD (1 + 1 + 32 + 1 + (body.getD (1 + 1 + 32) 0).val) 0)
      (body.getD (1 + 1 + 32 + 1 + (body.getD (1 + 1 + 32) 0).val + 1) 0)).val / 2)
      (List.drop (1 + 1 + 32 + 1 + (body.getD (1 + 1 + 32) 0).val + 2) body) []).2 ≠ [] := by
    intro hc
    rw [hc] at h8
    cases h8
  obtain ⟨r1, r2⟩ := readCipherSuites_spec _ _ _ hne
  rw [r1, List.drop_drop] at h8
  rw [r2] at h
  obtain ⟨l8, rfl, rfl⟩ := ReadByte_drop h8
  split at h
  · cases h
  rename_i ct buf9 h9
  obtain ⟨l9, rfl, rfl⟩ := ReadByte_drop h9
  split at h
  · cases h
  rename_i E buf10 h10
  obtain ⟨l10, rfl, rfl⟩ := binaryReadUint16_drop h10
  split at h
  · cases h
  rename_i hE0
  split at h
  · cases h
  rename_i d11 n11 buf11 h11
  obtain ⟨-, -, -, hnil⟩ := Read_inv h11
  obtain ⟨hd11, hl11⟩ := Read_data h11
  rw [hl11] at h
  subst hd11
  clear h1 h2 h3 h4 h5 h6 h8 h9 h10 h11 r1 r2 hne hn5b hn32 hn3
  generalize hS : (body.getD (1 + 1 + 32) 0).val = S at *
  generalize hC : (bigEndianUint16 (body.getD (1 + 1 + 32 + 1 + S) 0)
    (body.getD (1 + 1 + 32 + 1 + S + 1) 0)).val = C at *
  generalize hE : (bigEndianUint16 (body.getD (1 + 1 + 32 + 1 + S + 2 + 2 * (C / 2) + 1 + 1) 0)
    (body.getD (1 + 1 + 32 + 1 + S + 2 + 2 * (C / 2) + 1 + 1 + 1) 0)).val = E at *
  have hS2 : Spec.sessionIdLength body = S := hS
  have hC2 : Spec.cipherSuitesLength body = C := by
    rw [← hC, bigEndianUint16_val, Spec.cipherSuitesLength, hS2]
    rw [show 1 + 1 + 32 + 1 + S = 35 + S by omega, show 35 + S + 1 = 36 + S by omega]
  have hO2 : Spec.compressionOffset body = 37 + S + 2 * (C / 2) := by
    rw [Spec.compressionOffset, hS2, hC2]
  have hE2 : Spec.extensionsLength body = E := by
    rw [← hE, bigEndianUint16_val, Spec.extensionsLength, hO2]
    rw [show 1 + 1 + 32 + 1 + S + 2 + 2 * (C / 2) + 1 + 1 = 37 + S + 2 * (C / 2) + 2 by omega,
      show 37 + S + 2 * (C / 2) + 2 + 1 = 37 + S + 2 * (C / 2) + 3 by omega]
  rw [hE2, hO2, hC2, hS2]
  have hk : 1 + 1 + 32 + 1 + S + 2 + 2 * (C / 2) + 1 + 1 + 2 = 37 + S + 2 * (C / 2) + 4 := by
    omega
  have hk1 : 1 + 1 + 32 + 1 + S + 2 + 2 * (C / 2) = 37 + S + 2 * (C / 2) := by omega
  have hk2 : 1 + 1 + 32 + 1 + S + 2 = 37 + S := by omega
  rw [hk] at h hnil
  rw [hk1, hk2] at h
  simp only [List.nil_append, getD_drop, ← Nat.add_assoc, List.length_drop] at h
  refine ⟨?_, hE0, h⟩
  by_contra hc
  exact hE0 (hnil (List.drop_eq_nil_iff.mpr (by omega)))


/-! ## The handshake header -/

theorem shl16_shl8_or (a b c : Nat) (hb : b < 256) (hc : c < 256) :
    ((a <<< 16) ||| (b <<< 8)) ||| c = a * 65536 + b * 256 + c := by
  have h1 : (a <<< 16) ||| (b <<< 8) = a * 65536 + b * 256 := by
    have hb2 : b * 256 < 2 ^ 16 := by omega
    rw [Nat.shiftLeft_eq, Nat.shiftLeft_eq, Nat.mul_comm a, ← Nat.mul_add_lt_is_or hb2 a]
  have h2 : a * 65536 + b * 256 = 2 ^ 8 * (a * 256 + b) := by omega
  have hc2 : c < 2 ^ 8 := by omega
  rw [h1, h2, ← Nat.mul_add_lt_is_or hc2]

theorem Read_getD {buf : List Byte} {n m : Nat} {d rest : List Byte}
    (h : Read buf n = .ok (d, m, rest)) (i : Nat) (hi : i < n) : d.getD i 0 = buf.getD i 0 := by
  obtain ⟨hd, _⟩ := Read_data h
  subst hd
  rw [List.getD_eq_getElem?_getD, List.getD_eq_getElem?_getD]
  by_cases hlt : i < buf.length
  · rw [List.getElem?_append_left (by rw [List.length_take]; omega), List.getElem?_take_of_lt hi]
  · rw [List.getElem?_append_right (by rw [List.length_take]; omega)]
    rw [List.getElem?_eq_none (by omega : buf.length ≤ i)]
    rw [List.getElem?_replicate]
    split <;> rfl

/-- What `readHandshake` returns when it succeeds: the declared number of bytes after the
header, with zeros for those that are missing. -/
theorem readHandshake_inv {bs body : List Byte} (h : readHandshake bs = .ok body) :
    bs.getD 0 0 = 1 ∧ 1 < bs.length
      ∧ body = (bs.drop 4).take (Spec.handshakeLength bs)
          ++ List.replicate (Spec.handshakeLength bs - (bs.length - 4)) 0 := by
  unfold readHandshake at h
  split at h
  · cases h
  rename_i header buf1 h1
  obtain ⟨l1, rfl, rfl⟩ := @ReadByte_drop bs 0 _ _ h1
  split at h
  · cases h
  rename_i hh
  split at h
  · cases h
  rename_i d2 n2 buf2 h2
  obtain ⟨hn2, rfl, -, hnil2⟩ := Read_inv h2
  have g0 := Read_getD h2 0 (by omega)
  have g1 := Read_getD h2 1 (by omega)
  have g2 := Read_getD h2 2 (by omega)
  simp only [getD_drop] at g0 g1 g2
  have hlen : 1 < bs.length := by
    by_contra hc
    have := hnil2 (List.drop_eq_nil_iff.mpr (by omega))
    omega
  simp only at h
  rw [g0, g1, g2, shl16_shl8_or _ _ _ (Fin.isLt _) (Fin.isLt _)] at h
  split at h
  · cases h
  rename_i d3 n3 buf3 h3
  cases h
  obtain ⟨hd3, -⟩ := Read_data h3
  refine ⟨by simpa using hh, hlen, ?_⟩
  rw [hd3, List.drop_drop, List.length_drop]
  have hL : (bs.getD (0 + 1 + 0) 0).val * 65536 + (bs.getD (0 + 1 + 1) 0).val * 256
      + (bs.getD (0 + 1 + 2) 0).val = Spec.handshakeLength bs := rfl
  rw [hL]
  rw [List.length_drop] at hn2
  rcases Nat.lt_or_ge bs.length 4 with hlt | hge
  · have e1 : List.drop (0 + 1 + n2) bs = [] := List.drop_eq_nil_iff.mpr (by omega)
    have e2 : List.drop 4 bs = [] := List.drop_eq_nil_iff.mpr (by omega)
    rw [e1, e2]
    congr 2
    omega
  · have e : 0 + 1 + n2 = 4 := by omega
    rw [e]

theorem ParseClientHello_inv {s : String} {p : ParsedClientHello}
    (h : ParseClientHello s = .ok p) :
    ∃ bs body, hexDecodeString s = .ok bs ∧ readHandshake bs = .ok body
      ∧ parseClientHelloPacket body = .ok p := by
  unfold ParseClientHello at h
  split at h
  · cases h
  rename_i bs hbs
  unfold ParseClientHelloBytes at h
  split at h
  · cases h
  rename_i body hbody
  exact ⟨bs, body, hbs, hbody, h⟩

theorem handshakeBody_of_covered {bs body : List Byte} (h : readHandshake bs = .ok body)
    (hfull : 4 + Spec.handshakeLength bs ≤ bs.length) : body = Spec.handshakeBody bs := by
  obtain ⟨-, -, hb⟩ := readHandshake_inv h
  rw [hb, Spec.handshakeBody, Nat.sub_eq_zero_of_le (by omega)]
  simp


/-! ## GREASE filtering -/

theorem parse_noGrease {s : String} {p : ParsedClientHello} (h : ParseClientHello s = .ok p) :
    NoGrease p.Extensions ∧ NoGrease p.EllipticCurves := by
  obtain ⟨bs, body, -, -, hp⟩ := ParseClientHello_inv h
  obtain ⟨-, -, hloop⟩ := parseClientHelloPacket_inv hp
  obtain ⟨-, -, -, h4, h5⟩ := extensionsLoop_frame _ _ _ _ hloop
  exact ⟨h4 (fun _ hv => absurd hv (List.not_mem_nil _)),
    h5 (fun _ hv => absurd hv (List.not_mem_nil _))⟩

theorem greaseValues_pass_test : ∀ v ∈ Spec.greaseValues, v.val &&& greaseBitmask = 0x0A0A := by
  intro v hv
  simp only [Spec.greaseValues, List.mem_cons, List.mem_singleton, List.not_mem_nil,
    or_false] at hv
  rw [grease_test_iff]
  rcases hv with h | h | h | h | h | h | h | h | h | h | h | h | h | h | h | h <;> subst h <;>
    decide

/-- C7: on every input that `ParseClientHello` accepts, no element `v` of the result's
`Extensions` and no element `v` of its `EllipticCurves` satisfies `v & 0x0F0F == 0x0A0A`. -/
theorem parse_result_has_no_grease (s : String) (p : ParsedClientHello)
    (h : ParseClientHello s = .ok p) :
    (∀ v ∈ p.Extensions, v.val &&& 0x0F0F ≠ 0x0A0A)
      ∧ (∀ v ∈ p.EllipticCurves, v.val &&& 0x0F0F ≠ 0x0A0A) :=
  parse_noGrease h

/-- The theorem `parse_result_has_no_grease` at a message whose extensions are a GREASE
extension 0x1a1a, then supported groups [0xaaaa, 0x001d]: both GREASE values are dropped. -/
theorem parse_result_has_no_grease_witness :
    ParseClientHello
        "010000390303000102030405060708090a0b0c0d0e0f101112131415161718191a1b1c1d1e1f00000213010100000e1a1a0000000a00060004aaaa001d"
      = .ok { TLSVersion := { Major := 3, Minor := 3 }, CipherSuites := [0x1301],
              Compression := { Method := 1, Type_ := 0 }, Extensions := [10],
              EllipticCurves := [0x001d] }
    ∧ (∀ v ∈ [(10 : U16)], v.val &&& 0x0F0F ≠ 0x0A0A)
    ∧ (∀ v ∈ [(0x001d : U16)], v.val &&& 0x0F0F ≠ 0x0A0A) :=
  ⟨by decide,
   parse_result_has_no_grease
    "010000390303000102030405060708090a0b0c0d0e0f101112131415161718191a1b1c1d1e1f00000213010100000e1a1a0000000a00060004aaaa001d"
    { TLSVersion := { Major := 3, Minor := 3 }, CipherSuites := [0x1301],
      Compression := { Method := 1, Type_ := 0 }, Extensions := [10],
      EllipticCurves := [0x001d] } (by decide)⟩

/-- C8, as stated, fails: the value 0x1A2A passes the test `v & 0x0F0F == 0x0A0A` of the parser
and is not one of the 16 GREASE code points (its two bytes differ). -/
theorem grease_test_accepts_non_grease :
    ((0x1A2A : U16).val &&& greaseBitmask = 0x0A0A) ∧ (0x1A2A : U16) ∉ Spec.greaseValues := by
  decide

/-- C8, amended: every one of the 16 GREASE code points passes the test `v & 0x0F0F == 0x0A0A`,
and a 16-bit value passes it if and only if the low nibble of each of its two bytes is `0xA`
(the high nibbles are free and need not be equal). -/
theorem grease_test_characterisation :
    (∀ v ∈ Spec.greaseValues, v.val &&& greaseBitmask = 0x0A0A)
      ∧ (∀ v : U16, v.val &&& greaseBitmask = 0x0A0A ↔ (v.val % 16 = 10 ∧ v.val / 256 % 16 = 10)) :=
  ⟨greaseValues_pass_test, fun v => grease_test_iff v.val⟩

/-- The theorem `grease_test_characterisation` at the GREASE value 0x1A1A and at 0x1A2A. -/
theorem grease_test_characterisation_witness :
    ((0x1A1A : U16).val &&& greaseBitmask = 0x0A0A)
      ∧ ((0x1A2A : U16).val &&& greaseBitmask = 0x0A0A) :=
  ⟨grease_test_characterisation.1 0x1A1A (by decide),
   (grease_test_characterisation.2 0x1A2A).mpr (by decide)⟩


/-! ## The extensions block as a sequence of TLV records -/

theorem bigEndianUint16_split (n : Nat) (hn : n < 65536) :
    (bigEndianUint16 ⟨n / 256 % 256, Nat.mod_lt _ (by decide)⟩
      ⟨n % 256, Nat.mod_lt _ (by decide)⟩).val = n := by
  rw [bigEndianUint16_val]
  simp only
  omega

theorem Read_append (a b : List Byte) :
    Read (a ++ b) a.length = .ok (a, a.length, b) := by
  unfold Read
  split
  · rename_i heq
    obtain ⟨ha, hb⟩ := List.append_eq_nil.mp heq
    subst ha hb
    rfl
  · have hmin : min a.length (a ++ b).length = a.length := by
      rw [List.length_append]; omega
    simp only [hmin, List.take_left, List.drop_left, Nat.sub_self, List.replicate_zero,
      List.append_nil]

theorem encodeRecords_cons (r : U16 × List Byte) (rs : List (U16 × List Byte)) :
    Spec.encodeRecords (r :: rs) =
      ⟨r.1.val / 256 % 256, Nat.mod_lt _ (by decide)⟩ :: ⟨r.1.val % 256, Nat.mod_lt _ (by decide)⟩
        :: ⟨r.2.length / 256 % 256, Nat.mod_lt _ (by decide)⟩
        :: ⟨r.2.length % 256, Nat.mod_lt _ (by decide)⟩ :: (r.2 ++ Spec.encodeRecords rs) := by
  simp [Spec.encodeRecords, Spec.encodeRecord]

/-- On a block that is a sequence of TLV records, the loop appends the record types that fail
the GREASE test, in order. -/
theorem extensionsLoop_records (rs : List (U16 × List Byte)) :
    ∀ (fuel : Nat) (p q : ParsedClientHello), (∀ r ∈ rs, r.2.length < 65536) →
      extensionsLoop fuel (Spec.encodeRecords rs) p = .ok q →
      q.Extensions = p.Extensions
        ++ (rs.map Prod.fst).filter (fun t => t.val &&& 0x0F0F != 0x0A0A) := by
  induction rs with
  | nil =>
    intro fuel p q _ h
    cases fuel <;> simp [extensionsLoop, Spec.encodeRecords] at h <;> simp [← h]
  | cons r rs ih =>
    intro fuel p q hlen h
    have hr : r.2.length < 65536 := hlen r (List.mem_cons_self _ _)
    have hrs : ∀ x ∈ rs, x.2.length < 65536 := fun x hx => hlen x (List.mem_cons_of_mem _ hx)
    rw [encodeRecords_cons] at h
    cases fuel with
    | zero => simp [extensionsLoop] at h
    | succ fuel =>
      simp only [extensionsLoop, binaryReadUint16, List.length_cons] at h
      rw [if_pos (by omega)] at h
      have hv : (bigEndianUint16 ⟨r.2.length / 256 % 256, Nat.mod_lt _ (by decide)⟩
          ⟨r.2.length % 256, Nat.mod_lt _ (by decide)⟩).val = r.2.length :=
        bigEndianUint16_split _ hr
      have ht : bigEndianUint16 ⟨r.1.val / 256 % 256, Nat.mod_lt _ (by decide)⟩
          ⟨r.1.val % 256, Nat.mod_lt _ (by decide)⟩ = r.1 :=
        Fin.ext (bigEndianUint16_split _ r.1.isLt)
      rw [hv, ht, Read_append] at h
      simp only at h
      split at h
      · cases h
      rename_i q1 hq1
      obtain ⟨-, -, -, he, -⟩ := parseExtensionContents_frame hq1
      have hrec := ih fuel q1 q hrs h
      rw [hrec, he]
      simp only [List.map_cons, List.filter_cons]
      by_cases hg : r.1.val &&& greaseBitmask = 0x0A0A
      · have hg2 : (r.1.val &&& 0x0F0F != 0x0A0A) = false := by
          simpa [greaseBitmask] using hg
        simp [hg, hg2]
      · have hg2 : (r.1.val &&& 0x0F0F != 0x0A0A) = true := by
          simpa [greaseBitmask] using hg
        simp [hg, hg2]


/-- C9: on every accepted input in which the declared lengths are covered by the bytes present
(the handshake body lies within the input, the extensions block lies within the body, and the
block is exactly a sequence of TLV records), the result's `Extensions` is the sequence of the
record types, in wire order and with duplicates kept, without those that pass the GREASE
test. -/
theorem extensions_are_record_types (s : String) (bs : List Byte) (p : ParsedClientHello)
    (records : List (U16 × List Byte))
    (hdec : hexDecodeString s = .ok bs) (hparse : ParseClientHello s = .ok p)
    (hbody : 4 + Spec.handshakeLength bs ≤ bs.length)
    (hblock : Spec.compressionOffset (Spec.handshakeBody bs) + 4
        + Spec.extensionsLength (Spec.handshakeBody bs) ≤ (Spec.handshakeBody bs).length)
    (hrecords : Spec.extensionsBlock (Spec.handshakeBody bs) = Spec.encodeRecords records)
    (hlen : ∀ r ∈ records, r.2.length < 65536) :
    p.Extensions = (records.map Prod.fst).filter (fun t => t.val &&& 0x0F0F != 0x0A0A) := by
  obtain ⟨bs2, body, hdec2, hhead, hp⟩ := ParseClientHello_inv hparse
  rw [hdec] at hdec2
  cases hdec2
  have hb := handshakeBody_of_covered hhead hbody
  subst hb
  obtain ⟨-, -, hloop⟩ := parseClientHelloPacket_inv hp
  rw [Nat.sub_eq_zero_of_le (by omega), List.replicate_zero, List.append_nil] at hloop
  have hblk : List.take (Spec.extensionsLength (Spec.handshakeBody bs))
      (List.drop (Spec.compressionOffset (Spec.handshakeBody bs) + 4) (Spec.handshakeBody bs))
      = Spec.encodeRecords records := hrecords
  rw [hblk] at hloop
  have := extensionsLoop_records records _ _ _ hlen hloop
  simpa using this

/-- The theorem `extensions_are_record_types` at a message whose extensions block holds a GREASE
record 0x0a0a, a record of type 23, point formats (type 11) and a second record of type 23. -/
theorem extensions_are_record_types_witness :
    ([23, 11, 23] : List U16)
      = ([((0x0a0a : U16), ([] : List Byte)), (23, []), (11, [1, 0]), (23, [])].map
          Prod.fst).filter (fun t => t.val &&& 0x0F0F != 0x0A0A) :=
  extensions_are_record_types
    "0100003d0303000102030405060708090a0b0c0d0e0f101112131415161718191a1b1c1d1e1f0000021301010000120a0a000000170000000b0002010000170000"
    [1, 0, 0, 61, 3, 3, 0, 1, 2, 3, 4, 5, 6, 7, 8, 9, 10, 11, 12, 13, 14, 15, 16, 17, 18, 19,
    20, 21, 22, 23, 24, 25, 26, 27, 28, 29, 30, 31, 0, 0, 2, 19, 1, 1, 0, 0, 18, 10, 10, 0, 0,
    0, 23, 0, 0, 0, 11, 0, 2, 1, 0, 0, 23, 0, 0]
    { TLSVersion := { Major := 3, Minor := 3 }, CipherSuites := [0x1301],
      Compression := { Method := 1, Type_ := 0 }, Extensions := [23, 11, 23],
      EllipticCurveCompressionFormat := [0] }
    [(0x0a0a, []), (23, []), (11, [1, 0]), (23, [])]
    (by decide) (by decide) (by decide) (by decide) (by decide) (by decide)

/-- C10: on every accepted input whose handshake body is fully present, the cipher-suite list
(the `C` bytes after the declared length `C`) lies within the body, the result's `CipherSuites`
has exactly `C / 2` entries, and entry `i` is the big-endian value of bytes `2 * i` and
`2 * i + 1` of that list; a trailing byte of an odd `C` makes no entry. -/
theorem cipherSuites_are_wire_pairs (s : String) (bs : List Byte) (p : ParsedClientHello)
    (hdec : hexDecodeString s = .ok bs) (hparse : ParseClientHello s = .ok p)
    (hbody : 4 + Spec.handshakeLength bs ≤ bs.length) :
    (Spec.cipherSuiteList (Spec.handshakeBody bs)).length
        = Spec.cipherSuitesLength (Spec.handshakeBody bs)
      ∧ p.CipherSuites.length = Spec.cipherSuitesLength (Spec.handshakeBody bs) / 2
      ∧ ∀ i, i < Spec.cipherSuitesLength (Spec.handshakeBody bs) / 2 →
          (p.CipherSuites.getD i 0).val
            = ((Spec.cipherSuiteList (Spec.handshakeBody bs)).getD (2 * i) 0).val * 256
              + ((Spec.cipherSuiteList (Spec.handshakeBody bs)).getD (2 * i + 1) 0).val := by
  obtain ⟨bs2, body, hdec2, hhead, hp⟩ := ParseClientHello_inv hparse
  rw [hdec] at hdec2
  cases hdec2
  have hb := handshakeBody_of_covered hhead hbody
  subst hb
  obtain ⟨hoff, -, hloop⟩ := parseClientHelloPacket_inv hp
  obtain ⟨-, hcs, -⟩ := extensionsLoop_frame _ _ _ _ hloop
  simp only at hcs
  generalize Spec.handshakeBody bs = body at *
  rw [Spec.compressionOffset] at hoff
  refine ⟨?_, ?_, ?_⟩
  · rw [Spec.cipherSuiteList, List.length_take, List.length_drop]
    omega
  · rw [hcs, List.length_map, List.length_range]
  · intro i hi
    have h1 : 2 * i + 1 < Spec.cipherSuitesLength body := by omega
    have g : ∀ j, j < Spec.cipherSuitesLength body →
        (Spec.cipherSuiteList body).getD j 0 = body.getD (37 + Spec.sessionIdLength body + j) 0 := by
      intro j hj
      rw [Spec.cipherSuiteList, List.getD_eq_getElem?_getD, List.getElem?_take_of_lt hj,
        ← List.getD_eq_getElem?_getD, getD_drop]
    rw [g _ (by omega), g _ h1, hcs, List.getD_eq_getElem?_getD, List.getElem?_map,
      List.getElem?_range hi]
    simp only [Option.map_some', Option.getD_some]
    rw [bigEndianUint16_val]
    rfl

/-- The theorem `cipherSuites_are_wire_pairs` at a message declaring `C = 5`: the list is
`13 01 13 02 01` and the suites are 0x1301 and 0x1302. -/
theorem cipherSuites_are_wire_pairs_witness :
    (Spec.cipherSuiteList (Spec.handshakeBody
        [1, 0, 0, 49, 3, 3, 0, 1, 2, 3, 4, 5, 6, 7, 8, 9, 10, 11, 12, 13, 14, 15, 16, 17, 18,
        19, 20, 21, 22, 23, 24, 25, 26, 27, 28, 29, 30, 31, 0, 0, 5, 19, 1, 19, 2, 1, 0, 0, 4,
        0, 23, 0, 0])).length
      = 5
    ∧ ([0x1301, 0x1302] : List U16).length = 5 / 2
    ∧ (([0x1301, 0x1302] : List U16).getD 1 0).val = 0x13 * 256 + 0x02 := by
  have h := cipherSuites_are_wire_pairs
    "010000310303000102030405060708090a0b0c0d0e0f101112131415161718191a1b1c1d1e1f000005130113020100000400170000"
    [1, 0, 0, 49, 3, 3, 0, 1, 2, 3, 4, 5, 6, 7, 8, 9, 10, 11, 12, 13, 14, 15, 16, 17, 18,
        19, 20, 21, 22, 23, 24, 25, 26, 27, 28, 29, 30, 31, 0, 0, 5, 19, 1, 19, 2, 1, 0, 0, 4,
        0, 23, 0, 0]
    { TLSVersion := { Major := 3, Minor := 3 }, CipherSuites := [0x1301, 0x1302],
      Compression := { Method := 1, Type_ := 0 }, Extensions := [23] }
    (by decide) (by decide) (by decide)
  exact ⟨h.1, h.2.1, h.2.2 1 (by decide)⟩


/-! ## The fuel of the extensions loop always suffices -/

theorem index_ne_outOfFuel (s : List Byte) (i : Nat) : index s i ≠ .error .outOfFuel := by
  unfold index
  split <;> intro h <;> cases h

theorem sliceFrom_ne_outOfFuel (s : List Byte) (i : Nat) : sliceFrom s i ≠ .error .outOfFuel := by
  unfold sliceFrom
  split <;> intro h <;> cases h

theorem curvesLoop_ne_outOfFuel (sc : List Byte) :
    ∀ (n i : Nat) (acc : List U16), curvesLoop sc n i acc ≠ .error .outOfFuel := by
  intro n
  induction n with
  | zero => intro i acc h; cases h
  | succ n ih =>
    intro i acc h
    simp only [curvesLoop, bind, Except.bind] at h
    split at h
    · rename_i e he
      cases h
      exact index_ne_outOfFuel _ _ he
    · split at h
      · rename_i e he
        cases h
        exact index_ne_outOfFuel _ _ he
      · split at h <;> exact ih _ _ h

theorem formatsLoop_ne_outOfFuel (cs : List Byte) :
    ∀ (n i : Nat) (acc : List Byte), formatsLoop cs n i acc ≠ .error .outOfFuel := by
  intro n
  induction n with
  | zero => intro i acc h; cases h
  | succ n ih =>
    intro i acc h
    simp only [formatsLoop, bind, Except.bind] at h
    split at h
    · rename_i e he
      cases h
      exact index_ne_outOfFuel _ _ he
    · exact ih _ _ h

theorem parseExtensionContents_ne_outOfFuel (t : U16) (c : List Byte) (p : ParsedClientHello) :
    parseExtensionContents t c p ≠ .error .outOfFuel := by
  intro h
  unfold parseExtensionContents at h
  simp only [bind, Except.bind, pure, Except.pure, throw, throwThe, MonadExceptOf.throw] at h
  repeat' split at h
  all_goals first
    | (cases h; done)
    | (rename_i he; cases h; first
        | exact index_ne_outOfFuel _ _ he
        | exact sliceFrom_ne_outOfFuel _ _ he
        | exact curvesLoop_ne_outOfFuel _ _ _ _ he
        | exact formatsLoop_ne_outOfFuel _ _ _ _ he)

theorem extensionsLoop_ne_outOfFuel :
    ∀ (fuel : Nat) (buf : List Byte) (p : ParsedClientHello), buf.length ≤ fuel →
      extensionsLoop fuel buf p ≠ .error .outOfFuel := by
  intro fuel
  induction fuel with
  | zero =>
    intro buf p hle h
    simp only [extensionsLoop] at h
    rw [if_neg (by omega)] at h
    cases h
  | succ fuel ih =>
    intro buf p hle h
    simp only [extensionsLoop] at h
    split at h
    · split at h
      · cases h
      · rename_i t buf1 h1
        obtain ⟨b0, b1, hb, -⟩ := binaryReadUint16_inv h1
        split at h
        · cases h
        · rename_i n buf2 h2
          obtain ⟨c0, c1, hc, -⟩ := binaryReadUint16_inv h2
          split at h
          · cases h
          · rename_i d m buf3 h3
            obtain ⟨-, hrest, -, -⟩ := Read_inv h3
            split at h
            · rename_i e he
              cases h
              exact parseExtensionContents_ne_outOfFuel _ _ _ he
            · refine ih _ _ ?_ h
              subst hb hc hrest
              simp only [List.length_cons, List.length_drop] at hle ⊢
              omega
    · cases h

/-- The model of `ParseClientHello` never runs out of fuel: every call ends by a return or by a
panic. -/
theorem ParseClientHello_ne_outOfFuel (s : String) : ParseClientHello s ≠ .error .outOfFuel := by
  intro h
  unfold ParseClientHello at h
  split at h
  · cases h
  unfold ParseClientHelloBytes at h
  split at h
  · rename_i e he
    cases h
    unfold readHandshake at he
    split at he
    · cases he
    · split at he
      · cases he
      · split at he
        · cases he
        · simp only at he
          split at he <;> cases he
  · unfold parseClientHelloPacket at h
    repeat' split at h
    all_goals first
      | cases h
      | exact extensionsLoop_ne_outOfFuel _ _ _ (Nat.le_refl _) h

/-! ## The fingerprint as a function of the fingerprinted fields -/

theorem canonicalString_pooled (b1 b2 : String) (p : ParsedClientHello) :
    canonicalString b1 p = canonicalString b2 p := by
  rw [canonicalString_join, canonicalString_join]

theorem canonicalString_congr (pooled : String) (p q : ParsedClientHello)
    (hv : p.TLSVersion = q.TLSVersion) (hc : p.CipherSuites = q.CipherSuites)
    (he : p.Extensions = q.Extensions) (hg : p.EllipticCurves = q.EllipticCurves)
    (hf : p.EllipticCurveCompressionFormat = q.EllipticCurveCompressionFormat) :
    canonicalString pooled p = canonicalString pooled q := by
  rw [canonicalString_join, canonicalString_join, hv, hc, he, hg, hf]

/-- C18: with the pooled scratch buffer as explicit state, the results of `MarshalJA3` do not
depend on what the buffer held when it was taken from the pool: for every structure and any two
prior contents, the fingerprint, the error and the string that is hashed are the same. -/
theorem MarshalJA3_pool_independent (md5Sum : List Byte → Digest) (p : ParsedClientHello)
    (b1 b2 : String) :
    (MarshalJA3 md5Sum b1 p).1 = (MarshalJA3 md5Sum b2 p).1
      ∧ (MarshalJA3 md5Sum b1 p).2.1 = (MarshalJA3 md5Sum b2 p).2.1
      ∧ canonicalString b1 p = canonicalString b2 p := by
  refine ⟨?_, rfl, canonicalString_pooled b1 b2 p⟩
  simp only [MarshalJA3, canonicalString_pooled b1 b2 p]

/-- C20: two structures that agree on `TLSVersion`, `CipherSuites`, `Extensions`,
`EllipticCurves` and `EllipticCurveCompressionFormat` get the same fingerprint from `MarshalJA3`,
whatever their `SNI` and `Compression` are. -/
theorem MarshalJA3_ignores_sni_and_compression (md5Sum : List Byte → Digest) (pooled : String)
    (p q : ParsedClientHello)
    (hv : p.TLSVersion = q.TLSVersion) (hc : p.CipherSuites = q.CipherSuites)
    (he : p.Extensions = q.Extensions) (hg : p.EllipticCurves = q.EllipticCurves)
    (hf : p.EllipticCurveCompressionFormat = q.EllipticCurveCompressionFormat) :
    (MarshalJA3 md5Sum pooled p).1 = (MarshalJA3 md5Sum pooled q).1 := by
  simp only [MarshalJA3, canonicalString_congr pooled p q hv hc he hg hf]

/-- The theorem `MarshalJA3_ignores_sni_and_compression` at two structures that differ in `SNI`
and in both fields of `Compression`. -/
theorem MarshalJA3_ignores_sni_and_compression_witness :
    (MarshalJA3 sampleDigest ""
        { TLSVersion := { Major := 3, Minor := 3 }, CipherSuites := [0x1301],
          Compression := { Method := 1, Type_ := 0 }, Extensions := [0, 10],
          SNI := [97], EllipticCurves := [29], EllipticCurveCompressionFormat := [0] }).1
      = (MarshalJA3 sampleDigest ""
        { TLSVersion := { Major := 3, Minor := 3 }, CipherSuites := [0x1301],
          Compression := { Method := 2, Type_ := 7 }, Extensions := [0, 10],
          SNI := [98, 99], EllipticCurves := [29], EllipticCurveCompressionFormat := [0] }).1 :=
  MarshalJA3_ignores_sni_and_compression sampleDigest "" _ _ rfl rfl rfl rfl rfl

/-! ## What is returned alongside a failure -/

theorem index_ret {s : List Byte} {i : Nat} {q : ParsedClientHello} {e : GoError}
    (h : index s i = .error (.ret q e)) : False := by
  unfold index at h
  split at h <;> cases h

theorem sliceFrom_ret {s : List Byte} {i : Nat} {q : ParsedClientHello} {e : GoError}
    (h : sliceFrom s i = .error (.ret q e)) : False := by
  unfold sliceFrom at h
  split at h <;> cases h

theorem curvesLoop_ret (sc : List Byte) :
    ∀ (n i : Nat) (acc : List U16) (q : ParsedClientHello) (e : GoError),
      curvesLoop sc n i acc ≠ .error (.ret q e) := by
  intro n
  induction n with
  | zero => intro i acc q e h; cases h
  | succ n ih =>
    intro i acc q e h
    simp only [curvesLoop, bind, Except.bind] at h
    split at h
    · rename_i x hx
      cases h
      exact index_ret hx
    · split at h
      · rename_i x hx
        cases h
        exact index_ret hx
      · split at h <;> exact ih _ _ _ _ h

theorem formatsLoop_ret (cs : List Byte) :
    ∀ (n i : Nat) (acc : List Byte) (q : ParsedClientHello) (e : GoError),
      formatsLoop cs n i acc ≠ .error (.ret q e) := by
  intro n
  induction n with
  | zero => intro i acc q e h; cases h
  | succ n ih =>
    intro i acc q e h
    simp only [formatsLoop, bind, Except.bind] at h
    split at h
    · rename_i x hx
      cases h
      exact index_ret hx
    · exact ih _ _ _ _ h

theorem parseExtensionContents_ret {t : U16} {c : List Byte} {p q : ParsedClientHello}
    {e : GoError} (h : parseExtensionContents t c p = .error (.ret q e)) : q = {} := by
  unfold parseExtensionContents at h
  simp only [bind, Except.bind, pure, Except.pure, throw, throwThe, MonadExceptOf.throw] at h
  repeat' split at h
  all_goals first
    | (cases h; rfl)
    | (cases h; done)
    | (rename_i he; cases h; first
        | exact (index_ret he).elim
        | exact (sliceFrom_ret he).elim
        | exact (curvesLoop_ret _ _ _ _ _ _ he).elim
        | exact (formatsLoop_ret _ _ _ _ _ _ he).elim)

theorem extensionsLoop_ret :
    ∀ (fuel : Nat) (buf : List Byte) (p q : ParsedClientHello) (e : GoError),
      extensionsLoop fuel buf p = .error (.ret q e) → q = {} := by
  intro fuel
  induction fuel with
  | zero =>
    intro buf p q e h
    simp only [extensionsLoop] at h
    split at h <;> cases h
  | succ fuel ih =>
    intro buf p q e h
    simp only [extensionsLoop] at h
    split at h
    · split at h
      · cases h; rfl
      · split at h
        · cases h; rfl
        · split at h
          · cases h; rfl
          · split at h
            · rename_i x hx
              cases h
              exact parseExtensionContents_ret hx
            · exact ih _ _ _ _ h
    · cases h

theorem readHandshake_ret {bs : List Byte} {q : ParsedClientHello} {e : GoError}
    (h : readHandshake bs = .error (.ret q e)) : q = {} := by
  unfold readHandshake at h
  split at h
  · cases h; rfl
  · split at h
    · cases h; rfl
    · split at h
      · cases h; rfl
      · simp only at h
        split at h <;> cases h
        rfl

theorem parseClientHelloPacket_ret {body : List Byte} {q : ParsedClientHello} {e : GoError}
    (h : parseClientHelloPacket body = .error (.ret q e)) : q = {} := by
  unfold parseClientHelloPacket at h
  repeat' split at h
  all_goals first
    | (cases h; rfl)
    | exact extensionsLoop_ret _ _ _ _ _ h

/-- C17: whenever `ParseClientHello` returns a failure, the structure returned with it is the
zero value `ParsedClientHello{}`, on every failure path. -/
theorem failure_returns_zero_value (s : String) (q : ParsedClientHello) (e : GoError)
    (h : ParseClientHello s = .error (.ret q e)) :
    q = { TLSVersion := { Major := 0, Minor := 0 }, CipherSuites := [],
          Compression := { Method := 0, Type_ := 0 }, Extensions := [], SNI := [],
          EllipticCurves := [], EllipticCurveCompressionFormat := [] } := by
  unfold ParseClientHello at h
  split at h
  · cases h; rfl
  unfold ParseClientHelloBytes at h
  split at h
  · rename_i x hx
    cases h
    exact readHandshake_ret hx
  · exact parseClientHelloPacket_ret h

/-- The theorem `failure_returns_zero_value` at a message that fails on its second extension,
a server-name extension whose entry type is 9, after the version, the cipher suite and the first
extension were decoded. -/
theorem failure_returns_zero_value_witness :
    ParseClientHello
        "0100003e0303000102030405060708090a0b0c0d0e0f101112131415161718191a1b1c1d1e1f000002130101000013001700000000000b000b00096578616d706c65"
      = .error (.ret {} .sniNotDNSHostname)
    ∧ ({} : ParsedClientHello)
      = { TLSVersion := { Major := 0, Minor := 0 }, CipherSuites := [],
          Compression := { Method := 0, Type_ := 0 }, Extensions := [], SNI := [],
          EllipticCurves := [], EllipticCurveCompressionFormat := [] } :=
  ⟨by decide, failure_returns_zero_value _ _ _ (by decide :
    ParseClientHello
        "0100003e0303000102030405060708090a0b0c0d0e0f101112131415161718191a1b1c1d1e1f000002130101000013001700000000000b000b00096578616d706c65"
      = .error (.ret {} .sniNotDNSHostname))⟩

/-! ## Reading forward through a body that is long enough -/

theorem ReadByte_drop_ok (l : List Byte) (k : Nat) (hk : k < l.length) :
    ReadByte (l.drop k) = .ok (l.getD k 0, l.drop (k + 1)) := by
  rw [List.drop_eq_getElem_cons hk, List.getD_eq_getElem _ _ hk]
  rfl

theorem Read_ok (buf : List Byte) (n : Nat) (hn : n ≤ buf.length) :
    Read buf n = .ok (buf.take n, n, buf.drop n) := by
  unfold Read
  split
  · have : n = 0 := by simpa using hn
    subst this
    rfl
  · simp only [Nat.min_eq_left hn, Nat.sub_self, List.replicate_zero, List.append_nil]

theorem Read_drop_ok (l : List Byte) (k n : Nat) (hn : k + n ≤ l.length) :
    Read (l.drop k) n = .ok ((l.drop k).take n, n, l.drop (k + n)) := by
  rw [Read_ok _ _ (by rw [List.length_drop]; omega), List.drop_drop]

theorem binaryReadUint16_drop_ok (l : List Byte) (k : Nat) (hk : k + 2 ≤ l.length) :
    binaryReadUint16 (l.drop k)
      = (.ok (bigEndianUint16 (l.getD k 0) (l.getD (k + 1) 0)), l.drop (k + 2)) := by
  rw [List.drop_eq_getElem_cons (by omega : k < l.length),
    List.drop_eq_getElem_cons (by omega : k + 1 < l.length),
    List.getD_eq_getElem _ _ (by omega : k < l.length),
    List.getD_eq_getElem _ _ (by omega : k + 1 < l.length)]
  rfl

theorem readCipherSuites_ok (n : Nat) :
    ∀ (buf : List Byte) (acc : List U16), 2 * n ≤ buf.length →
      readCipherSuites n buf acc
        = (acc ++ (List.range n).map
            (fun i => bigEndianUint16 (buf.getD (2 * i) 0) (buf.getD (2 * i + 1) 0)),
           buf.drop (2 * n)) := by
  induction n with
  | zero => intro buf acc _; simp [readCipherSuites]
  | succ n ih =>
    intro buf acc hlen
    match buf, hlen with
    | b0 :: b1 :: rest, hlen =>
      simp only [readCipherSuites, binaryReadUint16]
      rw [ih rest _ (by simp only [List.length_cons] at hlen; omega)]
      have e : 2 * (n + 1) = 2 * n + 1 + 1 := by omega
      rw [e, List.range_succ_eq_map, List.map_cons, List.map_map, List.append_assoc]
      rfl

/-- The parser on a body that reaches past the extensions length field. -/
theorem parseClientHelloPacket_eq (body : List Byte)
    (hoff : Spec.compressionOffset body + 4 ≤ body.length) :
    parseClientHelloPacket body =
      if Spec.extensionsLength body = 0 then .error (.ret {} .noExtensions)
      else
        match Read (body.drop (Spec.compressionOffset body + 4)) (Spec.extensionsLength body) with
        | .error _ => .error (.ret {} .unableToGetExtensions)
        | .ok (extensionsData, _, _) =>
          extensionsLoop extensionsData.length extensionsData (Spec.fixedFields body) := by
  have hoff2 : 37 + Spec.sessionIdLength body + 2 * (Spec.cipherSuitesLength body / 2) + 4
      ≤ body.length := hoff
  generalize hS : Spec.sessionIdLength body = S at hoff2
  generalize hC : Spec.cipherSuitesLength body = C at hoff2
  have hO : Spec.compressionOffset body = 37 + S + 2 * (C / 2) := by
    rw [Spec.compressionOffset, hS, hC]
  have h1 : ReadByte body = .ok (body.getD 0 0, body.drop 1) :=
    ReadByte_drop_ok body 0 (by omega)
  have h2 := ReadByte_drop_ok body 1 (by omega)
  have h3 := Read_drop_ok body 2 32 (by omega)
  have h4 := ReadByte_drop_ok body 34 (by omega)
  have h5 := Read_drop_ok body 35 S (by omega)
  have h6 := binaryReadUint16_drop_ok body (35 + S) (by omega)
  have hCv : (bigEndianUint16 (body.getD (35 + S) 0) (body.getD (35 + S + 1) 0)).val = C := by
    rw [bigEndianUint16_val, ← hC, Spec.cipherSuitesLength, hS,
      show 35 + S + 1 = 36 + S by omega]
  have h7 := readCipherSuites_ok (C / 2) (body.drop (35 + S + 2)) []
    (by rw [List.length_drop]; omega)
  have h8 := ReadByte_drop_ok body (35 + S + 2 + 2 * (C / 2)) (by omega)
  have h9 := ReadByte_drop_ok body (35 + S + 2 + 2 * (C / 2) + 1) (by omega)
  have h10 := binaryReadUint16_drop_ok body (35 + S + 2 + 2 * (C / 2) + 1 + 1) (by omega)
  have hSv : (body.getD 34 0).val = S := hS
  unfold parseClientHelloPacket
  simp only [h1, h2, h3, h4, hSv, h5, h6, hCv, h7, List.drop_drop, h8, h9, h10]
  have hEv : (bigEndianUint16 (body.getD (35 + S + 2 + 2 * (C / 2) + 1 + 1) 0)
      (body.getD (35 + S + 2 + 2 * (C / 2) + 1 + 1 + 1) 0)).val
      = Spec.extensionsLength body := by
    rw [bigEndianUint16_val, Spec.extensionsLength, hO,
      show 35 + S + 2 + 2 * (C / 2) + 1 + 1 = 37 + S + 2 * (C / 2) + 2 by omega,
      show 37 + S + 2 * (C / 2) + 2 + 1 = 37 + S + 2 * (C / 2) + 3 by omega]
  have hF : Spec.fixedFields body =
      { TLSVersion := { Major := body.getD 0 0, Minor := body.getD 1 0 },
        CipherSuites := [] ++ List.map (fun i =>
          bigEndianUint16 ((List.drop (35 + S + 2) body).getD (2 * i) 0)
            ((List.drop (35 + S + 2) body).getD (2 * i + 1) 0)) (List.range (C / 2)),
        Compression := { Method := body.getD (35 + S + 2 + 2 * (C / 2)) 0,
                         Type_ := body.getD (35 + S + 2 + 2 * (C / 2) + 1) 0 } } := by
    rw [Spec.fixedFields, hO, hS, hC, show 35 + S + 2 = 37 + S by omega]
    simp only [List.nil_append, getD_drop, ← Nat.add_assoc]
  rw [hEv, hF, hO, show 35 + S + 2 + 2 * (C / 2) + 1 + 1 + 2 = 37 + S + 2 * (C / 2) + 4 by omega]
  simp only [ne_eq, not_true_eq_false, ite_false]

theorem extensionsBlock_length (body : List Byte)
    (hblock : Spec.compressionOffset body + 4 + Spec.extensionsLength body ≤ body.length) :
    (Spec.extensionsBlock body).length = Spec.extensionsLength body := by
  rw [Spec.extensionsBlock, List.length_take, List.length_drop]
  omega

/-- The parser on a body that holds its whole extensions block. -/
theorem parseClientHelloPacket_block (body : List Byte)
    (hblock : Spec.compressionOffset body + 4 + Spec.extensionsLength body ≤ body.length)
    (hE : Spec.extensionsLength body ≠ 0) :
    parseClientHelloPacket body =
      extensionsLoop (Spec.extensionsBlock body).length (Spec.extensionsBlock body)
        (Spec.fixedFields body) := by
  rw [parseClientHelloPacket_eq body (by omega), if_neg hE,
    Read_drop_ok body _ _ hblock]
  rfl

/-- The handshake header of an input that holds its whole body. -/
theorem readHandshake_eq (bs : List Byte) (hbody : 4 + Spec.handshakeLength bs ≤ bs.length) :
    readHandshake bs =
      if bs.getD 0 0 ≠ 1 then .error (.ret {} (.notClientHello (bs.getD 0 0)))
      else .ok (Spec.handshakeBody bs) := by
  rcases bs with _ | ⟨b0, _ | ⟨b1, _ | ⟨b2, _ | ⟨b3, rest⟩⟩⟩⟩
  · simp only [List.length_nil] at hbody
    omega
  · simp only [List.length_cons, List.length_nil] at hbody
    omega
  · simp only [List.length_cons, List.length_nil] at hbody
    omega
  · simp only [List.length_cons, List.length_nil] at hbody
    omega
  · have hL : Spec.handshakeLength (b0 :: b1 :: b2 :: b3 :: rest)
        = b1.val * 65536 + b2.val * 256 + b3.val := rfl
    have hlen : b1.val * 65536 + b2.val * 256 + b3.val ≤ rest.length := by
      rw [hL] at hbody
      simp only [List.length_cons] at hbody
      omega
    have h3 : Read (b1 :: b2 :: b3 :: rest) 3 = .ok ([b1, b2, b3], 3, rest) :=
      Read_ok (b1 :: b2 :: b3 :: rest) 3 (by simp only [List.length_cons]; omega)
    simp only [readHandshake, ReadByte, h3, List.getD_cons_zero, List.getD_cons_succ,
      shl16_shl8_or _ _ _ b2.isLt b3.isLt, Read_ok rest _ hlen]
    split
    · rfl
    · simp only [Spec.handshakeBody, hL, List.drop_succ_cons, List.drop_zero]

/-- The whole parser on an input that holds its body and its extensions block. -/
theorem ParseClientHello_eq_loop {s : String} {bs : List Byte}
    (hdec : hexDecodeString s = .ok bs) (hfirst : bs.getD 0 0 = 1)
    (hbody : 4 + Spec.handshakeLength bs ≤ bs.length)
    (hblock : Spec.compressionOffset (Spec.handshakeBody bs) + 4
        + Spec.extensionsLength (Spec.handshakeBody bs) ≤ (Spec.handshakeBody bs).length)
    (hE : Spec.extensionsLength (Spec.handshakeBody bs) ≠ 0) :
    ParseClientHello s =
      extensionsLoop (Spec.extensionsBlock (Spec.handshakeBody bs)).length
        (Spec.extensionsBlock (Spec.handshakeBody bs)) (Spec.fixedFields (Spec.handshakeBody bs)) := by
  simp only [ParseClientHello, hdec, ParseClientHelloBytes, readHandshake_eq bs hbody, hfirst,
    ne_eq, not_true_eq_false, ite_false]
  exact parseClientHelloPacket_block _ hblock hE

/-! ## Zero extensions, and bytes after the body -/

theorem ParseClientHello_of_body {s : String} {bs body : List Byte}
    (hdec : hexDecodeString s = .ok bs) (hhead : readHandshake bs = .ok body) :
    ParseClientHello s = parseClientHelloPacket body := by
  simp only [ParseClientHello, hdec, ParseClientHelloBytes, hhead]

/-- C15: when the handshake header is read and the body reaches past the extensions length
field (so that everything before it is parsed), and that field is `0x0000`, `ParseClientHello`
returns the "no extensions" failure, with the zero structure. -/
theorem zero_extensions_length_fails (s : String) (bs body : List Byte)
    (hdec : hexDecodeString s = .ok bs) (hhead : readHandshake bs = .ok body)
    (hoff : Spec.compressionOffset body + 4 ≤ body.length)
    (hE : Spec.extensionsLength body = 0) :
    ParseClientHello s = .error (.ret {} .noExtensions) := by
  rw [ParseClientHello_of_body hdec hhead, parseClientHelloPacket_eq body hoff, if_pos hE]

theorem getD_append_left (l t : List Byte) (i : Nat) (hi : i < l.length) :
    (l ++ t).getD i 0 = l.getD i 0 := by
  rw [List.getD_eq_getElem?_getD, List.getD_eq_getElem?_getD, List.getElem?_append_left hi]

theorem getD_take (l : List Byte) (n i : Nat) (hi : i < n) :
    (l.take n).getD i 0 = l.getD i 0 := by
  rw [List.getD_eq_getElem?_getD, List.getD_eq_getElem?_getD, List.getElem?_take_of_lt hi]

theorem readHandshake_append (bs t : List Byte)
    (hbody : 4 + Spec.handshakeLength bs ≤ bs.length) :
    readHandshake (bs ++ t) = readHandshake bs := by
  have hL : Spec.handshakeLength (bs ++ t) = Spec.handshakeLength bs := by
    simp only [Spec.handshakeLength, getD_append_left bs t 1 (by omega),
      getD_append_left bs t 2 (by omega), getD_append_left bs t 3 (by omega)]
  have hB : Spec.handshakeBody (bs ++ t) = Spec.handshakeBody bs := by
    rw [Spec.handshakeBody, hL, Spec.handshakeBody,
      List.drop_append_of_le_length (by omega),
      List.take_append_of_le_length (by rw [List.length_drop]; omega)]
  rw [readHandshake_eq (bs ++ t) (by rw [hL, List.length_append]; omega),
    readHandshake_eq bs hbody, hB, getD_append_left bs t 0 (by omega)]

theorem readHandshake_take (bs : List Byte)
    (hbody : 4 + Spec.handshakeLength bs ≤ bs.length) :
    readHandshake (bs.take (4 + Spec.handshakeLength bs)) = readHandshake bs := by
  have key : ∀ n, 4 ≤ n → Spec.handshakeLength (bs.take n) = Spec.handshakeLength bs := by
    intro n hn
    simp only [Spec.handshakeLength, getD_take bs n 1 (by omega),
      getD_take bs n 2 (by omega), getD_take bs n 3 (by omega)]
  have hL : Spec.handshakeLength (bs.take (4 + Spec.handshakeLength bs))
      = Spec.handshakeLength bs := key _ (by omega)
  have hB : Spec.handshakeBody (bs.take (4 + Spec.handshakeLength bs))
      = Spec.handshakeBody bs := by
    rw [Spec.handshakeBody, hL, Spec.handshakeBody, List.drop_take, List.take_take]
    congr 1
    omega
  rw [readHandshake_eq _ (by rw [hL, List.length_take]; omega),
    readHandshake_eq bs hbody, hB, getD_take bs _ 0 (by omega)]

/-- The theorem `zero_extensions_length_fails` at a message with one cipher suite and the
extensions length `00 00`. -/
theorem zero_extensions_length_fails_witness :
    ParseClientHello
        "0100002b0303000102030405060708090a0b0c0d0e0f101112131415161718191a1b1c1d1e1f000002130101000000"
      = .error (.ret {} .noExtensions) :=
  zero_extensions_length_fails
    "0100002b0303000102030405060708090a0b0c0d0e0f101112131415161718191a1b1c1d1e1f000002130101000000"
    [1, 0, 0, 43, 3, 3, 0, 1, 2, 3, 4, 5, 6, 7, 8, 9, 10, 11, 12, 13, 14, 15, 16, 17, 18, 19,
    20, 21, 22, 23, 24, 25, 26, 27, 28, 29, 30, 31, 0, 0, 2, 19, 1, 1, 0, 0, 0]
    [3, 3, 0, 1, 2, 3, 4, 5, 6, 7, 8, 9, 10, 11, 12, 13, 14, 15, 16, 17, 18, 19, 20, 21, 22,
    23, 24, 25, 26, 27, 28, 29, 30, 31, 0, 0, 2, 19, 1, 1, 0, 0, 0]
    (by decide) (by decide) (by decide) (by decide)

/-- C16: bytes after the declared body are ignored. When the bytes `bs` hold the 4-byte header
and at least the `L` body bytes it declares, `ParseClientHello` returns on `bs` followed by any
bytes `t` what it returns on the first `4 + L` bytes of `bs` (the same structure, the same
failure or the same panic). -/
theorem trailing_bytes_ignored (s1 s2 : String) (bs t : List Byte)
    (h1 : hexDecodeString s1 = .ok (bs ++ t))
    (h2 : hexDecodeString s2 = .ok (bs.take (4 + Spec.handshakeLength bs)))
    (hbody : 4 + Spec.handshakeLength bs ≤ bs.length) :
    ParseClientHello s1 = ParseClientHello s2 := by
  simp only [ParseClientHello, h1, h2, ParseClientHelloBytes, readHandshake_append bs t hbody,
    readHandshake_take bs hbody]

/-- The theorem `trailing_bytes_ignored` at a complete message of 4 + 47 bytes followed by the
byte `aa`, with the two further bytes `ff ff` as `t`. -/
theorem trailing_bytes_ignored_witness :
    ParseClientHello
        "0100002f0303000102030405060708090a0b0c0d0e0f101112131415161718191a1b1c1d1e1f00000213010100000400170000aaffff"
      = ParseClientHello
        "0100002f0303000102030405060708090a0b0c0d0e0f101112131415161718191a1b1c1d1e1f00000213010100000400170000" :=
  trailing_bytes_ignored
    "0100002f0303000102030405060708090a0b0c0d0e0f101112131415161718191a1b1c1d1e1f00000213010100000400170000aaffff"
    "0100002f0303000102030405060708090a0b0c0d0e0f101112131415161718191a1b1c1d1e1f00000213010100000400170000"
    [1, 0, 0, 47, 3, 3, 0, 1, 2, 3, 4, 5, 6, 7, 8, 9, 10, 11, 12, 13, 14, 15, 16, 17, 18, 19,
    20, 21, 22, 23, 24, 25, 26, 27, 28, 29, 30, 31, 0, 0, 2, 19, 1, 1, 0, 0, 4, 0, 23, 0, 0,
    170]
    [255, 255]
    (by decide) (by decide) (by decide)

/-! ## One extension record -/

theorem index_ok (s : List Byte) (i : Nat) (hi : i < s.length) :
    index s i = .ok (s.getD i 0) := by
  unfold index
  rw [List.getElem?_eq_getElem hi, List.getD_eq_getElem _ _ hi]

theorem index_inv {s : List Byte} {i : Nat} {b : Byte} (h : index s i = .ok b) :
    i < s.length := by
  unfold index at h
  split at h
  · rename_i x hx
    by_contra hc
    rw [List.getElem?_eq_none (by omega)] at hx
    cases hx
  · cases h

theorem index_val {s : List Byte} {i : Nat} {b : Byte} (h : index s i = .ok b) :
    b = s.getD i 0 := by
  have hi := index_inv h
  rw [index_ok s i hi] at h
  cases h
  rfl

theorem sliceFrom_ok (s : List Byte) (i : Nat) (hi : i ≤ s.length) :
    sliceFrom s i = .ok (s.drop i) := by
  unfold sliceFrom
  rw [if_pos hi]

theorem sliceFrom_inv {s r : List Byte} {i : Nat} (h : sliceFrom s i = .ok r) :
    i ≤ s.length := by
  unfold sliceFrom at h
  split at h
  · assumption
  · cases h

theorem shl8_or_eq_bigEndian (hi lo : Byte) :
    (⟨((hi.val <<< 8) ||| lo.val) % 65536, Nat.mod_lt _ (by decide)⟩ : U16)
      = bigEndianUint16 hi lo := by
  apply Fin.ext
  simp only [bigEndianUint16, Nat.or_comm]

theorem curvesLoop_succ (sc : List Byte) (n i : Nat) (acc : List U16)
    (hlen : 2 * i + 1 < sc.length) :
    curvesLoop sc (n + 1) i acc =
      if (bigEndianUint16 (sc.getD (2 * i) 0) (sc.getD (2 * i + 1) 0)).val &&& greaseBitmask
          ≠ 0x0A0A then
        curvesLoop sc n (i + 1)
          (acc ++ [bigEndianUint16 (sc.getD (2 * i) 0) (sc.getD (2 * i + 1) 0)])
      else curvesLoop sc n (i + 1) acc := by
  rw [← shl8_or_eq_bigEndian]
  simp only [curvesLoop, bind, Except.bind, Nat.mul_comm i 2, Nat.add_comm 1 (2 * i),
    index_ok sc (2 * i) (by omega), index_ok sc (2 * i + 1) (by omega)]

theorem curvesLoop_ok (sc : List Byte) :
    ∀ (n i : Nat) (acc : List U16), 2 * (i + n) ≤ sc.length →
      curvesLoop sc n i acc = .ok (acc ++ ((List.range n).map fun k =>
        bigEndianUint16 (sc.getD (2 * (i + k)) 0) (sc.getD (2 * (i + k) + 1) 0)).filter
          (fun v => v.val &&& 0x0F0F != 0x0A0A)) := by
  intro n
  induction n with
  | zero => intro i acc _; simp [curvesLoop]
  | succ n ih =>
    intro i acc hlen
    rw [curvesLoop_succ sc n i acc (by omega), List.range_succ_eq_map, List.map_cons,
      List.map_map, List.filter_cons]
    have hmap : List.map ((fun k => bigEndianUint16 (sc.getD (2 * (i + k)) 0)
          (sc.getD (2 * (i + k) + 1) 0)) ∘ Nat.succ) (List.range n)
        = List.map (fun k => bigEndianUint16 (sc.getD (2 * (i + 1 + k)) 0)
          (sc.getD (2 * (i + 1 + k) + 1) 0)) (List.range n) := by
      apply List.map_congr_left
      intro k _
      simp only [Function.comp, Nat.succ_eq_add_one,
        show i + (k + 1) = i + 1 + k by omega]
    rw [hmap]
    simp only [Nat.add_zero]
    by_cases hg : (bigEndianUint16 (sc.getD (2 * i) 0)
        (sc.getD (2 * i + 1) 0)).val &&& greaseBitmask = 0x0A0A
    · have hg2 : ((bigEndianUint16 (sc.getD (2 * i) 0)
          (sc.getD (2 * i + 1) 0)).val &&& 0x0F0F != 0x0A0A) = false := by
        simpa [greaseBitmask] using hg
      simp only [hg, ne_eq, not_true_eq_false, ite_false, hg2, Bool.false_eq_true]
      exact ih (i + 1) _ (by omega)
    · have hg2 : ((bigEndianUint16 (sc.getD (2 * i) 0)
          (sc.getD (2 * i + 1) 0)).val &&& 0x0F0F != 0x0A0A) = true := by
        simpa [greaseBitmask] using hg
      simp only [hg, ne_eq, not_false_eq_true, ite_true, hg2]
      rw [ih (i + 1) _ (by omega), List.append_assoc]
      rfl

theorem curvesLoop_inv (sc : List Byte) :
    ∀ (n i : Nat) (acc r : List U16), curvesLoop sc n i acc = .ok r →
      n = 0 ∨ 2 * (i + n) ≤ sc.length := by
  intro n
  induction n with
  | zero => intro i acc r _; exact Or.inl rfl
  | succ n ih =>
    intro i acc r h
    right
    simp only [curvesLoop, bind, Except.bind] at h
    split at h
    · cases h
    · rename_i b0 h0
      split at h
      · cases h
      · rename_i b1 h1
        have l1 := index_inv h1
        split at h
        · rcases ih _ _ _ h with hz | hz
          · omega
          · omega
        · rcases ih _ _ _ h with hz | hz
          · omega
          · omega

theorem formatsLoop_ok (cs : List Byte) :
    ∀ (n i : Nat) (acc : List Byte), i + n ≤ cs.length →
      formatsLoop cs n i acc = .ok (acc ++ (cs.drop i).take n) := by
  intro n
  induction n with
  | zero => intro i acc _; simp [formatsLoop]
  | succ n ih =>
    intro i acc hlen
    simp only [formatsLoop, bind, Except.bind, index_ok cs i (by omega)]
    rw [ih _ _ (by omega), List.append_assoc, List.drop_eq_getElem_cons (by omega : i < cs.length),
      List.take_succ_cons, List.getD_eq_getElem _ _ (by omega : i < cs.length)]
    rfl

theorem formatsLoop_inv (cs : List Byte) :
    ∀ (n i : Nat) (acc r : List Byte), formatsLoop cs n i acc = .ok r →
      n = 0 ∨ i + n ≤ cs.length := by
  intro n
  induction n with
  | zero => intro i acc r _; exact Or.inl rfl
  | succ n ih =>
    intro i acc r h
    right
    simp only [formatsLoop, bind, Except.bind] at h
    split at h
    · cases h
    · rename_i b0 h0
      have l0 := index_inv h0
      rcases ih _ _ _ h with hz | hz
      · omega
      · omega

theorem parseExtensionContents_ok (t : U16) (c : List Byte) (p : ParsedClientHello)
    (h : Spec.wellFormedRecord (t, c)) :
    parseExtensionContents t c p = .ok (Spec.applyContents p (t, c)) := by
  obtain ⟨h0, h10, h11⟩ := h
  simp only at h0 h10 h11
  unfold parseExtensionContents Spec.applyContents
  simp only [sniExtensionType, supportedGroupsType, ecpfExtensionType]
  by_cases e0 : t = 0
  · obtain ⟨hl, hz⟩ := h0 e0
    simp only [if_pos e0, bind, Except.bind, index_ok c 3 (by omega), hz,
      sliceFrom_ok c 5 hl, pure, Except.pure, ne_eq, not_true_eq_false, if_false]
  · by_cases e10 : t = 10
    · have hl := h10 e10
      have hraw : ((c.getD 0 0).val <<< 8 ||| (c.getD 1 0).val) % 65536
          = Spec.groupsListLength c := by
        rw [shl8_or _ _ (c.getD 1 0).isLt, Spec.groupsListLength]
        have := (c.getD 0 0).isLt
        have := (c.getD 1 0).isLt
        omega
      have hloop := curvesLoop_ok (c.drop 2) (Spec.groupsListLength c / 2) 0 []
        (by rw [List.length_drop]; omega)
      simp only [if_neg e0, if_pos e10, bind, Except.bind, index_ok c 0 (by omega),
        index_ok c 1 (by omega), sliceFrom_ok c 2 (by omega), hraw, hloop, pure, Except.pure,
        getD_drop, List.nil_append, Nat.zero_add, Spec.declaredCurves]
      rfl
    · by_cases e11 : t = 11
      · obtain ⟨hl, hn⟩ := h11 e11
        have hloop := formatsLoop_ok (c.drop 1) (c.getD 0 0).val 0
          p.EllipticCurveCompressionFormat (by rw [List.length_drop]; omega)
        simp only [if_neg e0, if_neg e10, if_pos e11, bind, Except.bind,
          index_ok c 0 (by omega), sliceFrom_ok c 1 (by omega), pure, Except.pure, hloop,
          Spec.formatsOf, List.drop_zero, show ¬ c.length < 2 by omega, if_false]
      · simp only [if_neg e0, if_neg e10, if_neg e11, pure, Except.pure]

theorem parseExtensionContents_wf {t : U16} {c : List Byte} {p q : ParsedClientHello}
    (h : parseExtensionContents t c p = .ok q) : Spec.wellFormedRecord (t, c) := by
  unfold parseExtensionContents at h
  simp only [sniExtensionType, supportedGroupsType, ecpfExtensionType, bind, Except.bind, pure,
    Except.pure, throw, throwThe, MonadExceptOf.throw] at h
  refine ⟨fun e0 => ?_, fun e10 => ?_, fun e11 => ?_⟩
  · simp only at e0
    rw [if_pos e0] at h
    split at h
    · cases h
    · rename_i b hb
      split at h
      · cases h
      · rename_i hz
        split at h
        · cases h
        · rename_i r hr
          have := sliceFrom_inv hr
          have hv := index_val hb
          refine ⟨this, ?_⟩
          rw [← hv]
          simpa using hz
  · simp only at e10
    rw [if_neg (by rw [e10]; decide), if_pos e10] at h
    split at h
    · cases h
    · rename_i b0 hb0
      split at h
      · cases h
      · rename_i b1 hb1
        split at h
        · cases h
        · rename_i sc hsc
          split at h
          · cases h
          · rename_i r hr
            have hl := sliceFrom_inv hsc
            rw [sliceFrom_ok c 2 hl] at hsc
            cases hsc
            have hD : ((b0.val <<< 8) ||| b1.val) % 65536 = Spec.groupsListLength c := by
              rw [shl8_or _ _ b1.isLt, Spec.groupsListLength, index_val hb0, index_val hb1]
              have := (c.getD 0 0).isLt
              have := (c.getD 1 0).isLt
              omega
            rw [hD] at hr
            rcases curvesLoop_inv _ _ _ _ _ hr with hz | hz
            · simp only; omega
            · rw [List.length_drop] at hz
              simp only
              omega
  · simp only at e11
    rw [if_neg (by rw [e11]; decide), if_neg (by rw [e11]; decide), if_pos e11] at h
    split at h
    · cases h
    · rename_i hl
      split at h
      · cases h
      · rename_i b0 hb0
        split at h
        · cases h
        · rename_i cs hcs
          split at h
          · cases h
          · rename_i r hr
            rw [sliceFrom_ok c 1 (by omega)] at hcs
            cases hcs
            rw [index_val hb0] at hr
            rcases formatsLoop_inv _ _ _ _ _ hr with hz | hz
            · simp only; omega
            · rw [List.length_drop] at hz
              simp only
              omega

/-! ## The extensions loop on a sequence of records -/

theorem extensionsLoop_nil (fuel : Nat) (p : ParsedClientHello) :
    extensionsLoop fuel [] p = .ok p := by
  cases fuel <;> simp [extensionsLoop]

theorem extensionsLoop_cons (fuel : Nat) (r : U16 × List Byte) (rs : List (U16 × List Byte))
    (p : ParsedClientHello) (hr : r.2.length < 65536) :
    extensionsLoop (fuel + 1) (Spec.encodeRecords (r :: rs)) p =
      match parseExtensionContents r.1 r.2 (Spec.appendType p r.1) with
      | .error e => .error e
      | .ok q => extensionsLoop fuel (Spec.encodeRecords rs) q := by
  have hv : (bigEndianUint16 ⟨r.2.length / 256 % 256, Nat.mod_lt _ (by decide)⟩
      ⟨r.2.length % 256, Nat.mod_lt _ (by decide)⟩).val = r.2.length :=
    bigEndianUint16_split _ hr
  have ht : bigEndianUint16 ⟨r.1.val / 256 % 256, Nat.mod_lt _ (by decide)⟩
      ⟨r.1.val % 256, Nat.mod_lt _ (by decide)⟩ = r.1 :=
    Fin.ext (bigEndianUint16_split _ r.1.isLt)
  rw [encodeRecords_cons]
  simp only [extensionsLoop, binaryReadUint16, List.length_cons]
  rw [if_pos (by omega), hv, ht, Read_append]
  rfl

theorem encodeRecords_length (rs : List (U16 × List Byte)) :
    rs.length ≤ (Spec.encodeRecords rs).length := by
  induction rs with
  | nil => simp
  | cons r rs ih =>
    rw [encodeRecords_cons]
    simp only [List.length_cons, List.length_append]
    omega

theorem encodeRecords_append (xs ys : List (U16 × List Byte)) :
    Spec.encodeRecords (xs ++ ys) = Spec.encodeRecords xs ++ Spec.encodeRecords ys := by
  simp [Spec.encodeRecords]

/-- The loop runs through a prefix of well-formed records, applying their effects. -/
theorem extensionsLoop_through (pre : List (U16 × List Byte)) :
    ∀ (fuel : Nat) (rest : List (U16 × List Byte)) (p : ParsedClientHello),
      (∀ r ∈ pre, r.2.length < 65536) → (∀ r ∈ pre, Spec.wellFormedRecord r) →
      extensionsLoop (fuel + pre.length) (Spec.encodeRecords (pre ++ rest)) p
        = extensionsLoop fuel (Spec.encodeRecords rest) (Spec.applyRecords p pre) := by
  induction pre with
  | nil => intro fuel rest p _ _; rfl
  | cons r pre ih =>
    intro fuel rest p hlen hwf
    have hr := hlen r (List.mem_cons_self _ _)
    have hw := hwf r (List.mem_cons_self _ _)
    rw [List.length_cons, ← Nat.add_assoc, List.cons_append, extensionsLoop_cons _ _ _ _ hr,
      parseExtensionContents_ok _ _ _ hw]
    simp only
    rw [ih fuel rest _ (fun x hx => hlen x (List.mem_cons_of_mem _ hx))
      (fun x hx => hwf x (List.mem_cons_of_mem _ hx))]
    rfl

/-- The loop accepts a sequence of well-formed records and applies their effects. -/
theorem extensionsLoop_ok (rs : List (U16 × List Byte)) (fuel : Nat) (p : ParsedClientHello)
    (hlen : ∀ r ∈ rs, r.2.length < 65536) (hwf : ∀ r ∈ rs, Spec.wellFormedRecord r)
    (hfuel : rs.length ≤ fuel) :
    extensionsLoop fuel (Spec.encodeRecords rs) p = .ok (Spec.applyRecords p rs) := by
  obtain ⟨k, rfl⟩ : ∃ k, fuel = k + rs.length := ⟨fuel - rs.length, by omega⟩
  have h := extensionsLoop_through rs k [] p hlen hwf
  rw [List.append_nil] at h
  rw [h]
  exact extensionsLoop_nil _ _

/-- The loop stops at the first record whose content is rejected. -/
theorem extensionsLoop_fail (pre : List (U16 × List Byte)) (r : U16 × List Byte)
    (post : List (U16 × List Byte)) (fuel : Nat) (p : ParsedClientHello) (e : Exit)
    (hlen : ∀ x ∈ pre ++ r :: post, x.2.length < 65536)
    (hwf : ∀ x ∈ pre, Spec.wellFormedRecord x)
    (hfuel : (pre ++ r :: post).length ≤ fuel)
    (hbad : ∀ q, parseExtensionContents r.1 r.2 q = .error e) :
    extensionsLoop fuel (Spec.encodeRecords (pre ++ r :: post)) p = .error e := by
  rw [List.length_append, List.length_cons] at hfuel
  obtain ⟨k, rfl⟩ : ∃ k, fuel = (k + 1) + pre.length := ⟨fuel - pre.length - 1, by omega⟩
  rw [extensionsLoop_through pre (k + 1) (r :: post) p
      (fun x hx => hlen x (List.mem_append_left _ hx)) hwf,
    extensionsLoop_cons _ _ _ _ (hlen r (List.mem_append_right _ (List.mem_cons_self _ _))),
    hbad]

/-- The loop accepts a sequence of records only if all are well-formed, and then applies
their effects. -/
theorem extensionsLoop_ok_inv (rs : List (U16 × List Byte)) :
    ∀ (fuel : Nat) (p q : ParsedClientHello), (∀ r ∈ rs, r.2.length < 65536) →
      extensionsLoop fuel (Spec.encodeRecords rs) p = .ok q →
        (∀ r ∈ rs, Spec.wellFormedRecord r) ∧ q = Spec.applyRecords p rs := by
  induction rs with
  | nil =>
    intro fuel p q _ h
    rw [show Spec.encodeRecords [] = [] from rfl, extensionsLoop_nil] at h
    cases h
    exact ⟨fun _ hr => absurd hr (List.not_mem_nil _), rfl⟩
  | cons r rs ih =>
    intro fuel p q hlen h
    have hr := hlen r (List.mem_cons_self _ _)
    cases fuel with
    | zero =>
      rw [encodeRecords_cons] at h
      simp [extensionsLoop] at h
    | succ fuel =>
      rw [extensionsLoop_cons _ _ _ _ hr] at h
      split at h
      · cases h
      · rename_i q1 hq1
        have hw := parseExtensionContents_wf hq1
        rw [parseExtensionContents_ok _ _ _ hw] at hq1
        cases hq1
        obtain ⟨hws, hq⟩ := ih fuel _ q (fun x hx => hlen x (List.mem_cons_of_mem _ hx)) h
        refine ⟨?_, hq⟩
        intro x hx
        rcases List.mem_cons.mp hx with hx | hx
        · rw [hx]; exact hw
        · exact hws x hx

/-! ## The parser on a message whose extensions block is a sequence of records -/

theorem ParseClientHello_records {s : String} {bs : List Byte} {rs : List (U16 × List Byte)}
    (hdec : hexDecodeString s = .ok bs) (hfirst : bs.getD 0 0 = 1)
    (hbody : 4 + Spec.handshakeLength bs ≤ bs.length)
    (hblock : Spec.compressionOffset (Spec.handshakeBody bs) + 4
        + Spec.extensionsLength (Spec.handshakeBody bs) ≤ (Spec.handshakeBody bs).length)
    (hrecords : Spec.extensionsBlock (Spec.handshakeBody bs) = Spec.encodeRecords rs)
    (hne : rs ≠ []) :
    ParseClientHello s =
      extensionsLoop (Spec.encodeRecords rs).length (Spec.encodeRecords rs)
        (Spec.fixedFields (Spec.handshakeBody bs)) := by
  have hE : Spec.extensionsLength (Spec.handshakeBody bs) ≠ 0 := by
    have h1 := extensionsBlock_length _ hblock
    have h2 := encodeRecords_length rs
    have h3 : 0 < rs.length := List.length_pos.mpr hne
    rw [hrecords] at h1
    omega
  rw [ParseClientHello_eq_loop hdec hfirst hbody hblock hE, hrecords]

theorem applyRecords_append (p : ParsedClientHello) (xs ys : List (U16 × List Byte)) :
    Spec.applyRecords p (xs ++ ys) = Spec.applyRecords (Spec.applyRecords p xs) ys := by
  simp [Spec.applyRecords, List.foldl_append]

theorem applyRecords_cons (p : ParsedClientHello) (r : U16 × List Byte)
    (rs : List (U16 × List Byte)) :
    Spec.applyRecords p (r :: rs) = Spec.applyRecords (Spec.applyRecord p r) rs := rfl

theorem applyRecord_SNI (p : ParsedClientHello) (r : U16 × List Byte) :
    (Spec.applyRecord p r).SNI = if r.1 = 0 then r.2.drop 5 else p.SNI := by
  unfold Spec.applyRecord Spec.applyContents Spec.appendType
  split <;> split <;> (try split) <;> (try split) <;> rfl

theorem applyRecord_EllipticCurves (p : ParsedClientHello) (r : U16 × List Byte) :
    (Spec.applyRecord p r).EllipticCurves
      = if r.1 = 10 then Spec.declaredCurves r.2 else p.EllipticCurves := by
  unfold Spec.applyRecord Spec.applyContents Spec.appendType
  by_cases h0 : r.1 = 0
  · have h10 : ¬ r.1 = 10 := by rw [h0]; decide
    simp only [if_pos h0, if_neg h10]
    split <;> rfl
  · by_cases h10 : r.1 = 10
    · simp only [if_neg h0, if_pos h10]
    · simp only [if_neg h0, if_neg h10]
      split <;> split <;> rfl

theorem applyRecord_formats (p : ParsedClientHello) (r : U16 × List Byte) :
    (Spec.applyRecord p r).EllipticCurveCompressionFormat
      = p.EllipticCurveCompressionFormat ++ (if r.1 = 11 then Spec.formatsOf r.2 else []) := by
  unfold Spec.applyRecord Spec.applyContents Spec.appendType
  by_cases h0 : r.1 = 0
  · have h11 : ¬ r.1 = 11 := by rw [h0]; decide
    simp only [if_pos h0, if_neg h11, List.append_nil]
    split <;> rfl
  · by_cases h10 : r.1 = 10
    · have h11 : ¬ r.1 = 11 := by rw [h10]; decide
      simp only [if_neg h0, if_pos h10, if_neg h11, List.append_nil]
      split <;> rfl
    · by_cases h11 : r.1 = 11
      · simp only [if_neg h0, if_neg h10, if_pos h11]
        split <;> rfl
      · simp only [if_neg h0, if_neg h10, if_neg h11, List.append_nil]
        split <;> rfl

theorem applyRecords_SNI (rs : List (U16 × List Byte)) :
    ∀ p : ParsedClientHello, (∀ r ∈ rs, r.1 ≠ 0) →
      (Spec.applyRecords p rs).SNI = p.SNI := by
  induction rs with
  | nil => intro p _; rfl
  | cons r rs ih =>
    intro p h
    rw [applyRecords_cons, ih _ (fun x hx => h x (List.mem_cons_of_mem _ hx)), applyRecord_SNI,
      if_neg (h r (List.mem_cons_self _ _))]

theorem applyRecords_EllipticCurves (rs : List (U16 × List Byte)) :
    ∀ p : ParsedClientHello, (∀ r ∈ rs, r.1 ≠ 10) →
      (Spec.applyRecords p rs).EllipticCurves = p.EllipticCurves := by
  induction rs with
  | nil => intro p _; rfl
  | cons r rs ih =>
    intro p h
    rw [applyRecords_cons, ih _ (fun x hx => h x (List.mem_cons_of_mem _ hx)),
      applyRecord_EllipticCurves, if_neg (h r (List.mem_cons_self _ _))]

theorem applyRecords_formats (rs : List (U16 × List Byte)) :
    ∀ p : ParsedClientHello,
      (Spec.applyRecords p rs).EllipticCurveCompressionFormat
        = p.EllipticCurveCompressionFormat ++ Spec.formatsOfRecords rs := by
  induction rs with
  | nil => intro p; simp [Spec.applyRecords, Spec.formatsOfRecords]
  | cons r rs ih =>
    intro p
    rw [applyRecords_cons, ih, applyRecord_formats, List.append_assoc]
    rfl

theorem parseExtensionContents_sni_bad (c : List Byte) (hl : 4 ≤ c.length)
    (hz : c.getD 3 0 ≠ 0) (q : ParsedClientHello) :
    parseExtensionContents 0 c q = .error (.ret {} .sniNotDNSHostname) := by
  unfold parseExtensionContents
  simp only [sniExtensionType, if_true, bind, Except.bind, index_ok c 3 (by omega), ne_eq, hz,
    not_false_eq_true, throw, throwThe, MonadExceptOf.throw]

theorem parseExtensionContents_ecpf_short (c : List Byte) (hl : c.length < 2)
    (q : ParsedClientHello) :
    parseExtensionContents 11 c q = .error (.ret {} .ecpfInvalidData) := by
  unfold parseExtensionContents
  simp only [sniExtensionType, supportedGroupsType, ecpfExtensionType,
    show ¬ ((11 : U16) = 0) by decide, show ¬ ((11 : U16) = 10) by decide, if_false, if_true,
    bind, Except.bind, hl, throw, throwThe, MonadExceptOf.throw]

/-! ## The server-name, supported-groups and EC-point-formats extensions

In the statements below an otherwise well-formed ClientHello is an input that starts with the
ClientHello type, holds its whole body, and whose body holds its whole extensions block, the
block being the encoding of the TLV records `pre`, then the record under study, then `post`,
where the records of `pre` and `post` are well-formed. -/

theorem parse_fails_at_record {s : String} {bs : List Byte}
    {pre post : List (U16 × List Byte)} {r : U16 × List Byte} {e : Exit}
    (hdec : hexDecodeString s = .ok bs) (hfirst : bs.getD 0 0 = 1)
    (hbody : 4 + Spec.handshakeLength bs ≤ bs.length)
    (hblock : Spec.compressionOffset (Spec.handshakeBody bs) + 4
        + Spec.extensionsLength (Spec.handshakeBody bs) ≤ (Spec.handshakeBody bs).length)
    (hrecords : Spec.extensionsBlock (Spec.handshakeBody bs)
        = Spec.encodeRecords (pre ++ r :: post))
    (hlen : ∀ x ∈ pre ++ r :: post, x.2.length < 65536)
    (hpre : ∀ x ∈ pre, Spec.wellFormedRecord x)
    (hbad : ∀ q, parseExtensionContents r.1 r.2 q = .error e) :
    ParseClientHello s = .error e := by
  rw [ParseClientHello_records hdec hfirst hbody hblock hrecords (by simp)]
  exact extensionsLoop_fail pre r post _ _ e hlen hpre (encodeRecords_length _) hbad

theorem parse_accepts_records {s : String} {bs : List Byte} {rs : List (U16 × List Byte)}
    (hdec : hexDecodeString s = .ok bs) (hfirst : bs.getD 0 0 = 1)
    (hbody : 4 + Spec.handshakeLength bs ≤ bs.length)
    (hblock : Spec.compressionOffset (Spec.handshakeBody bs) + 4
        + Spec.extensionsLength (Spec.handshakeBody bs) ≤ (Spec.handshakeBody bs).length)
    (hrecords : Spec.extensionsBlock (Spec.handshakeBody bs) = Spec.encodeRecords rs)
    (hne : rs ≠ []) (hlen : ∀ x ∈ rs, x.2.length < 65536)
    (hwf : ∀ x ∈ rs, Spec.wellFormedRecord x) :
    ParseClientHello s
      = .ok (Spec.applyRecords (Spec.fixedFields (Spec.handshakeBody bs)) rs) := by
  rw [ParseClientHello_records hdec hfirst hbody hblock hrecords hne]
  exact extensionsLoop_ok rs _ _ hlen hwf (encodeRecords_length _)

theorem wellFormed_middle {pre post : List (U16 × List Byte)} {r : U16 × List Byte}
    (hpre : ∀ x ∈ pre, Spec.wellFormedRecord x) (hr : Spec.wellFormedRecord r)
    (hpost : ∀ x ∈ post, Spec.wellFormedRecord x) :
    ∀ x ∈ pre ++ r :: post, Spec.wellFormedRecord x := by
  intro x hx
  rcases List.mem_append.mp hx with h | h
  · exact hpre x h
  · rcases List.mem_cons.mp h with h | h
    · rw [h]; exact hr
    · exact hpost x h

/-- C11, as stated, fails: a ClientHello whose only extension is a server-name extension with
the content `00 0b 00 09 65 78 61 6d 70 6c 65` is not accepted with the `SNI` "example"; it is
rejected with the DNS-hostname-type failure. -/
theorem sni_example_is_rejected :
    ParseClientHello
        "0100003a0303000102030405060708090a0b0c0d0e0f101112131415161718191a1b1c1d1e1f00000213010100000f0000000b000b00096578616d706c65"
      = .error (.ret {} .sniNotDNSHostname) := by
  decide

/-- C11, amended: the name of a server-name extension is read from index 5 of its content. In
every accepted ClientHello that holds its body and its extensions block and has a server-name
extension (type 0), and none after it, whose content `c` holds from index 4 on the bytes
`65 78 61 6d 70 6c 65` of "example", as the content `00 0b 00 09 65 78 61 6d 70 6c 65` does,
the result's `SNI` is the bytes `78 61 6d 70 6c 65` of "xample", and so is not the bytes of
"example". -/
theorem sni_example_name_starts_at_index_5 (s : String) (bs : List Byte)
    (p : ParsedClientHello) (pre post : List (U16 × List Byte)) (c : List Byte)
    (hdec : hexDecodeString s = .ok bs) (hparse : ParseClientHello s = .ok p)
    (hbody : 4 + Spec.handshakeLength bs ≤ bs.length)
    (hblock : Spec.compressionOffset (Spec.handshakeBody bs) + 4
        + Spec.extensionsLength (Spec.handshakeBody bs) ≤ (Spec.handshakeBody bs).length)
    (hrecords : Spec.extensionsBlock (Spec.handshakeBody bs)
        = Spec.encodeRecords (pre ++ (0, c) :: post))
    (hlen : ∀ x ∈ pre ++ (0, c) :: post, x.2.length < 65536)
    (hlast : ∀ x ∈ post, x.1 ≠ 0)
    (hc : c.drop 4 = [0x65, 0x78, 0x61, 0x6d, 0x70, 0x6c, 0x65]) :
    p.SNI = [0x78, 0x61, 0x6d, 0x70, 0x6c, 0x65]
      ∧ p.SNI ≠ [0x65, 0x78, 0x61, 0x6d, 0x70, 0x6c, 0x65] := by
  obtain ⟨bs2, body, hdec2, hhead, -⟩ := ParseClientHello_inv hparse
  rw [hdec] at hdec2
  cases hdec2
  obtain ⟨hfirst, -, -⟩ := readHandshake_inv hhead
  rw [ParseClientHello_records hdec hfirst hbody hblock hrecords (by simp)] at hparse
  obtain ⟨-, hp⟩ := extensionsLoop_ok_inv _ _ _ _ hlen hparse
  have h5 : c.drop 5 = [0x78, 0x61, 0x6d, 0x70, 0x6c, 0x65] := by
    have h := congrArg (List.drop 1) hc
    rw [List.drop_drop] at h
    exact h
  have hs : p.SNI = [0x78, 0x61, 0x6d, 0x70, 0x6c, 0x65] := by
    rw [hp, applyRecords_append, applyRecords_cons, applyRecords_SNI post _ hlast,
      applyRecord_SNI, if_pos rfl]
    exact h5
  refine ⟨hs, ?_⟩
  rw [hs]
  decide

/-- The theorem `sni_example_name_starts_at_index_5` at a message with the extensions: type 23
(empty), a server-name extension with the content `00 0b 00 00 65 78 61 6d 70 6c 65`, point
formats. -/
theorem sni_example_name_starts_at_index_5_witness :
    ParseClientHello
        "010000440303000102030405060708090a0b0c0d0e0f101112131415161718191a1b1c1d1e1f000002130101000019001700000000000b000b00006578616d706c65000b00020100"
      = .ok { TLSVersion := { Major := 3, Minor := 3 }, CipherSuites := [0x1301],
              Compression := { Method := 1, Type_ := 0 }, Extensions := [23, 0, 11],
              SNI := [0x78, 0x61, 0x6d, 0x70, 0x6c, 0x65],
              EllipticCurveCompressionFormat := [0] }
    ∧ ([0x78, 0x61, 0x6d, 0x70, 0x6c, 0x65] : List Byte) = [0x78, 0x61, 0x6d, 0x70, 0x6c, 0x65]
    ∧ ([0x78, 0x61, 0x6d, 0x70, 0x6c, 0x65] : List Byte)
        ≠ [0x65, 0x78, 0x61, 0x6d, 0x70, 0x6c, 0x65] :=
  ⟨by decide, sni_example_name_starts_at_index_5
    "010000440303000102030405060708090a0b0c0d0e0f101112131415161718191a1b1c1d1e1f000002130101000019001700000000000b000b00006578616d706c65000b00020100"
    [1, 0, 0, 68, 3, 3, 0, 1, 2, 3, 4, 5, 6, 7, 8, 9, 10, 11, 12, 13, 14, 15, 16, 17, 18, 19,
    20, 21, 22, 23, 24, 25, 26, 27, 28, 29, 30, 31, 0, 0, 2, 19, 1, 1, 0, 0, 25, 0, 23, 0, 0,
    0, 0, 0, 11, 0, 11, 0, 0, 101, 120, 97, 109, 112, 108, 101, 0, 11, 0, 2, 1, 0]
    { TLSVersion := { Major := 3, Minor := 3 }, CipherSuites := [0x1301],
      Compression := { Method := 1, Type_ := 0 }, Extensions := [23, 0, 11],
      SNI := [0x78, 0x61, 0x6d, 0x70, 0x6c, 0x65], EllipticCurveCompressionFormat := [0] }
    [(23, [])] [(11, [1, 0])] [0x00, 0x0b, 0x00, 0x00, 0x65, 0x78, 0x61, 0x6d, 0x70, 0x6c, 0x65]
    (by decide) (by decide) (by decide) (by decide) (by decide) (by decide) (by decide)
    (by decide)⟩

/-- C12: in every otherwise well-formed ClientHello with a server-name extension (type 0) whose
content `c` has at least 5 bytes: if the byte of `c` at index 3 is not 0, `ParseClientHello`
returns the DNS-hostname-type failure; if it is 0 and no later extension has type 0,
`ParseClientHello` succeeds and the result's `SNI` is `c` from index 5 to the end, whatever the
other bytes of `c` are. -/
theorem server_name_extension (s : String) (bs : List Byte)
    (pre post : List (U16 × List Byte)) (c : List Byte)
    (hdec : hexDecodeString s = .ok bs) (hfirst : bs.getD 0 0 = 1)
    (hbody : 4 + Spec.handshakeLength bs ≤ bs.length)
    (hblock : Spec.compressionOffset (Spec.handshakeBody bs) + 4
        + Spec.extensionsLength (Spec.handshakeBody bs) ≤ (Spec.handshakeBody bs).length)
    (hrecords : Spec.extensionsBlock (Spec.handshakeBody bs)
        = Spec.encodeRecords (pre ++ (0, c) :: post))
    (hlen : ∀ x ∈ pre ++ (0, c) :: post, x.2.length < 65536)
    (hpre : ∀ x ∈ pre, Spec.wellFormedRecord x)
    (hpost : ∀ x ∈ post, Spec.wellFormedRecord x)
    (hc : 5 ≤ c.length) :
    (c.getD 3 0 ≠ 0 → ParseClientHello s = .error (.ret {} .sniNotDNSHostname))
      ∧ (c.getD 3 0 = 0 → (∀ x ∈ post, x.1 ≠ 0) →
          ∃ p, ParseClientHello s = .ok p ∧ p.SNI = c.drop 5) := by
  constructor
  · intro hz
    exact parse_fails_at_record hdec hfirst hbody hblock hrecords hlen hpre
      (parseExtensionContents_sni_bad c (by omega) hz)
  · intro hz hlast
    have hr : Spec.wellFormedRecord (0, c) :=
      ⟨fun _ => ⟨hc, hz⟩, fun h => absurd (show (0 : U16) = 10 from h) (by decide),
        fun h => absurd (show (0 : U16) = 11 from h) (by decide)⟩
    refine ⟨_, parse_accepts_records hdec hfirst hbody hblock hrecords (by simp) hlen
      (wellFormed_middle hpre hr hpost), ?_⟩
    rw [applyRecords_append, applyRecords_cons, applyRecords_SNI post _ hlast, applyRecord_SNI,
      if_pos rfl]

/-- The theorem `server_name_extension` at two messages with the extensions: type 23, server
name, point formats. In the first the server-name content is `00 0e 00 00 0b "example.com"`,
in the second its byte at index 3 is 1. -/
theorem server_name_extension_witness :
    (∃ p, ParseClientHello
        "010000490303000102030405060708090a0b0c0d0e0f101112131415161718191a1b1c1d1e1f00000213010100001e0017000000000010000e00000b6578616d706c652e636f6d000b00020100"
        = .ok p ∧ p.SNI = [101, 120, 97, 109, 112, 108, 101, 46, 99, 111, 109])
    ∧ ParseClientHello
        "010000490303000102030405060708090a0b0c0d0e0f101112131415161718191a1b1c1d1e1f00000213010100001e0017000000000010000e00010b6578616d706c652e636f6d000b00020100"
      = .error (.ret {} .sniNotDNSHostname) :=
  ⟨(server_name_extension
      "010000490303000102030405060708090a0b0c0d0e0f101112131415161718191a1b1c1d1e1f00000213010100001e0017000000000010000e00000b6578616d706c652e636f6d000b00020100"
      [1, 0, 0, 73, 3, 3, 0, 1, 2, 3, 4, 5, 6, 7, 8, 9, 10, 11, 12, 13, 14, 15, 16, 17, 18, 19,
      20, 21, 22, 23, 24, 25, 26, 27, 28, 29, 30, 31, 0, 0, 2, 19, 1, 1, 0, 0, 30, 0, 23, 0, 0,
      0, 0, 0, 16, 0, 14, 0, 0, 11, 101, 120, 97, 109, 112, 108, 101, 46, 99, 111, 109, 0, 11,
      0, 2, 1, 0]
      [(23, [])] [(11, [1, 0])] [0, 14, 0, 0, 11, 101, 120, 97, 109, 112, 108, 101, 46, 99, 111, 109]
      (by decide) (by decide) (by decide) (by decide) (by decide) (by decide) (by decide)
      (by decide) (by decide)).2 (by decide) (by decide),
   (server_name_extension
      "010000490303000102030405060708090a0b0c0d0e0f101112131415161718191a1b1c1d1e1f00000213010100001e0017000000000010000e00010b6578616d706c652e636f6d000b00020100"
      [1, 0, 0, 73, 3, 3, 0, 1, 2, 3, 4, 5, 6, 7, 8, 9, 10, 11, 12, 13, 14, 15, 16, 17, 18, 19,
      20, 21, 22, 23, 24, 25, 26, 27, 28, 29, 30, 31, 0, 0, 2, 19, 1, 1, 0, 0, 30, 0, 23, 0, 0,
      0, 0, 0, 16, 0, 14, 0, 1, 11, 101, 120, 97, 109, 112, 108, 101, 46, 99, 111, 109, 0, 11,
      0, 2, 1, 0]
      [(23, [])] [(11, [1, 0])] [0, 14, 0, 1, 11, 101, 120, 97, 109, 112, 108, 101, 46, 99, 111, 109]
      (by decide) (by decide) (by decide) (by decide) (by decide) (by decide) (by decide)
      (by decide) (by decide)).1 (by decide)⟩

/-- C13, as stated, fails: a ClientHello whose supported-groups content is
`00 02 00 1d 00 17` (declared list length 2, four bytes after it) is accepted with
`EllipticCurves = [0x001d]`, while the consecutive pairs of the bytes after the first two are
0x001d and 0x0017: the declared length limits the curves. -/
theorem declared_groups_length_limits_curves :
    ParseClientHello
        "010000350303000102030405060708090a0b0c0d0e0f101112131415161718191a1b1c1d1e1f00000213010100000a000a00060002001d0017"
      = .ok { TLSVersion := { Major := 3, Minor := 3 }, CipherSuites := [0x1301],
              Compression := { Method := 1, Type_ := 0 }, Extensions := [10],
              EllipticCurves := [0x001d] }
    ∧ Spec.allCurvePairs [0x00, 0x02, 0x00, 0x1d, 0x00, 0x17] = [0x001d, 0x0017] := by
  constructor <;> decide

/-- C13, amended: in every accepted ClientHello that holds its body and its extensions block
and has exactly one supported-groups extension (type 10), with content `c` and declared list
length `D` (the first two bytes of `c`), the `D / 2` pairs that `D` declares lie within `c`, and
the result's `EllipticCurves` is the sequence of the big-endian values of the first `D / 2`
consecutive pairs of the bytes of `c` after the first two, in order, without those that pass
the GREASE test. -/
theorem supported_groups_extension (s : String) (bs : List Byte) (p : ParsedClientHello)
    (pre post : List (U16 × List Byte)) (c : List Byte)
    (hdec : hexDecodeString s = .ok bs) (hparse : ParseClientHello s = .ok p)
    (hbody : 4 + Spec.handshakeLength bs ≤ bs.length)
    (hblock : Spec.compressionOffset (Spec.handshakeBody bs) + 4
        + Spec.extensionsLength (Spec.handshakeBody bs) ≤ (Spec.handshakeBody bs).length)
    (hrecords : Spec.extensionsBlock (Spec.handshakeBody bs)
        = Spec.encodeRecords (pre ++ (10, c) :: post))
    (hlen : ∀ x ∈ pre ++ (10, c) :: post, x.2.length < 65536)
    (hone : ∀ x ∈ pre ++ post, x.1 ≠ 10) :
    2 + 2 * (Spec.groupsListLength c / 2) ≤ c.length
      ∧ p.EllipticCurves = Spec.declaredCurves c := by
  obtain ⟨bs2, body, hdec2, hhead, -⟩ := ParseClientHello_inv hparse
  rw [hdec] at hdec2
  cases hdec2
  obtain ⟨hfirst, -, -⟩ := readHandshake_inv hhead
  rw [ParseClientHello_records hdec hfirst hbody hblock hrecords (by simp)] at hparse
  obtain ⟨hwf, hp⟩ := extensionsLoop_ok_inv _ _ _ _ hlen hparse
  constructor
  · exact (hwf (10, c) (List.mem_append_right _ (List.mem_cons_self _ _))).2.1 rfl
  · rw [hp, applyRecords_append, applyRecords_cons,
      applyRecords_EllipticCurves post _ (fun x hx => hone x (List.mem_append_right _ hx)),
      applyRecord_EllipticCurves, if_pos rfl]

/-- The theorem `supported_groups_extension` at a message with the extensions: type 23, then
supported groups with content `00 04 0a 0a 00 1d 00 17` (declared length 4, a GREASE value, a
curve, and two bytes beyond the declared length), then point formats. -/
theorem supported_groups_extension_witness :
    2 + 2 * (Spec.groupsListLength [0x00, 0x04, 0x0a, 0x0a, 0x00, 0x1d, 0x00, 0x17] / 2)
        ≤ [0x00, 0x04, 0x0a, 0x0a, 0x00, 0x1d, 0x00, 0x17].length
      ∧ ([0x001d] : List U16)
        = Spec.declaredCurves [0x00, 0x04, 0x0a, 0x0a, 0x00, 0x1d, 0x00, 0x17] :=
  supported_groups_extension
    "010000410303000102030405060708090a0b0c0d0e0f101112131415161718191a1b1c1d1e1f00000213010100001600170000000a000800040a0a001d0017000b00020100"
    [1, 0, 0, 65, 3, 3, 0, 1, 2, 3, 4, 5, 6, 7, 8, 9, 10, 11, 12, 13, 14, 15, 16, 17, 18, 19,
    20, 21, 22, 23, 24, 25, 26, 27, 28, 29, 30, 31, 0, 0, 2, 19, 1, 1, 0, 0, 22, 0, 23, 0, 0,
    0, 10, 0, 8, 0, 4, 10, 10, 0, 29, 0, 23, 0, 11, 0, 2, 1, 0]
    { TLSVersion := { Major := 3, Minor := 3 }, CipherSuites := [0x1301],
      Compression := { Method := 1, Type_ := 0 }, Extensions := [23, 10, 11],
      EllipticCurves := [0x001d], EllipticCurveCompressionFormat := [0] }
    [(23, [])] [(11, [1, 0])] [0x00, 0x04, 0x0a, 0x0a, 0x00, 0x1d, 0x00, 0x17]
    (by decide) (by decide) (by decide) (by decide) (by decide) (by decide) (by decide)

/-- C14: in every otherwise well-formed ClientHello with an EC-point-formats extension
(type 11) of content `c`: if `c` has fewer than 2 bytes, `ParseClientHello` returns the
invalid-data failure; otherwise, with `N` the first byte of `c` and `N` at most the number of
bytes that follow it, `ParseClientHello` succeeds and the result's
`EllipticCurveCompressionFormat` is the formats of the earlier extensions, then exactly the
`N` bytes that follow the count byte, in order, then the formats of the later extensions. -/
theorem ec_point_formats_extension (s : String) (bs : List Byte)
    (pre post : List (U16 × List Byte)) (c : List Byte)
    (hdec : hexDecodeString s = .ok bs) (hfirst : bs.getD 0 0 = 1)
    (hbody : 4 + Spec.handshakeLength bs ≤ bs.length)
    (hblock : Spec.compressionOffset (Spec.handshakeBody bs) + 4
        + Spec.extensionsLength (Spec.handshakeBody bs) ≤ (Spec.handshakeBody bs).length)
    (hrecords : Spec.extensionsBlock (Spec.handshakeBody bs)
        = Spec.encodeRecords (pre ++ (11, c) :: post))
    (hlen : ∀ x ∈ pre ++ (11, c) :: post, x.2.length < 65536)
    (hpre : ∀ x ∈ pre, Spec.wellFormedRecord x)
    (hpost : ∀ x ∈ post, Spec.wellFormedRecord x) :
    (c.length < 2 → ParseClientHello s = .error (.ret {} .ecpfInvalidData))
      ∧ (2 ≤ c.length → (c.getD 0 0).val ≤ c.length - 1 →
          ∃ p, ParseClientHello s = .ok p
            ∧ p.EllipticCurveCompressionFormat
              = Spec.formatsOfRecords pre ++ (c.drop 1).take (c.getD 0 0).val
                  ++ Spec.formatsOfRecords post) := by
  constructor
  · intro hl
    exact parse_fails_at_record hdec hfirst hbody hblock hrecords hlen hpre
      (parseExtensionContents_ecpf_short c hl)
  · intro hl hn
    have hr : Spec.wellFormedRecord (11, c) :=
      ⟨fun h => absurd (show (11 : U16) = 0 from h) (by decide),
        fun h => absurd (show (11 : U16) = 10 from h) (by decide),
        fun _ => ⟨hl, by simp only; omega⟩⟩
    refine ⟨_, parse_accepts_records hdec hfirst hbody hblock hrecords (by simp) hlen
      (wellFormed_middle hpre hr hpost), ?_⟩
    rw [applyRecords_formats]
    simp [Spec.fixedFields, Spec.formatsOfRecords, Spec.formatsOf]

/-- The theorem `ec_point_formats_extension` at two messages. In the first the extensions are
point formats `01 02`, then point formats `02 01 00 07` (count 2, one byte beyond the count),
then type 23. In the second the only extension is point formats with the one-byte content
`00`. -/
theorem ec_point_formats_extension_witness :
    (∃ p, ParseClientHello
        "0100003d0303000102030405060708090a0b0c0d0e0f101112131415161718191a1b1c1d1e1f000002130101000012000b00020102000b00040201000700170000"
        = .ok p ∧ p.EllipticCurveCompressionFormat = [2] ++ [1, 0] ++ [])
    ∧ ParseClientHello
        "010000300303000102030405060708090a0b0c0d0e0f101112131415161718191a1b1c1d1e1f000002130101000005000b000100"
      = .error (.ret {} .ecpfInvalidData) :=
  ⟨(ec_point_formats_extension
      "0100003d0303000102030405060708090a0b0c0d0e0f101112131415161718191a1b1c1d1e1f000002130101000012000b00020102000b00040201000700170000"
      [1, 0, 0, 61, 3, 3, 0, 1, 2, 3, 4, 5, 6, 7, 8, 9, 10, 11, 12, 13, 14, 15, 16, 17, 18, 19,
      20, 21, 22, 23, 24, 25, 26, 27, 28, 29, 30, 31, 0, 0, 2, 19, 1, 1, 0, 0, 18, 0, 11, 0, 2,
      1, 2, 0, 11, 0, 4, 2, 1, 0, 7, 0, 23, 0, 0]
      [(11, [1, 2])] [(23, [])] [2, 1, 0, 7]
      (by decide) (by decide) (by decide) (by decide) (by decide) (by decide) (by decide)
      (by decide)).2 (by decide) (by decide),
   (ec_point_formats_extension
      "010000300303000102030405060708090a0b0c0d0e0f101112131415161718191a1b1c1d1e1f000002130101000005000b000100"
      [1, 0, 0, 48, 3, 3, 0, 1, 2, 3, 4, 5, 6, 7, 8, 9, 10, 11, 12, 13, 14, 15, 16, 17, 18, 19,
      20, 21, 22, 23, 24, 25, 26, 27, 28, 29, 30, 31, 0, 0, 2, 19, 1, 1, 0, 0, 5, 0, 11, 0, 1,
      0]
      [] [] [0]
      (by decide) (by decide) (by decide) (by decide) (by decide) (by decide) (by decide)
      (by decide)).1 (by decide)⟩

/-! ## The decimal rendering is injective and made of digits -/

theorem digitChar_toNat (k : Nat) (hk : k < 10) : (Nat.digitChar k).toNat = 48 + k := by
  interval_cases k <;> rfl

theorem toDigitsCore_append (fuel : Nat) :
    ∀ (n : Nat) (ds : List Char),
      Nat.toDigitsCore 10 fuel n ds = Nat.toDigitsCore 10 fuel n [] ++ ds := by
  induction fuel with
  | zero => intro n ds; rfl
  | succ fuel ih =>
    intro n ds
    simp only [Nat.toDigitsCore]
    split
    · rfl
    · rw [ih (n / 10) (Nat.digitChar (n % 10) :: ds), ih (n / 10) [Nat.digitChar (n % 10)],
        List.append_assoc]
      rfl

theorem decimalValue_append_singleton (xs : List Char) (c : Char) :
    decimalValue (xs ++ [c]) = 10 * decimalValue xs + (c.toNat - 48) := by
  simp [decimalValue, List.foldl_append]

theorem decimalValue_toDigitsCore (fuel : Nat) :
    ∀ n, n < fuel → decimalValue (Nat.toDigitsCore 10 fuel n []) = n := by
  induction fuel with
  | zero => intro n h; omega
  | succ fuel ih =>
    intro n hn
    simp only [Nat.toDigitsCore]
    have hd : (Nat.digitChar (n % 10)).toNat - 48 = n % 10 := by
      rw [digitChar_toNat _ (Nat.mod_lt _ (by decide))]
      omega
    split
    · rename_i h0
      simp only [decimalValue, List.foldl_cons, List.foldl_nil, hd]
      omega
    · rename_i h0
      rw [toDigitsCore_append, decimalValue_append_singleton, ih (n / 10) (by omega), hd]
      omega

theorem Itoa_data (n : Nat) : (Itoa n).data = Nat.toDigitsCore 10 (n + 1) n [] := rfl

theorem decimalValue_Itoa (n : Nat) : decimalValue (Itoa n).data = n := by
  rw [Itoa_data]
  exact decimalValue_toDigitsCore _ _ (by omega)

theorem Itoa_data_injective {a b : Nat} (h : (Itoa a).data = (Itoa b).data) : a = b := by
  rw [← decimalValue_Itoa a, ← decimalValue_Itoa b, h]

theorem toDigitsCore_digits (fuel : Nat) :
    ∀ (n : Nat) (c : Char), c ∈ Nat.toDigitsCore 10 fuel n [] →
      48 ≤ c.toNat ∧ c.toNat ≤ 57 := by
  induction fuel with
  | zero => intro n c h; simp [Nat.toDigitsCore] at h
  | succ fuel ih =>
    intro n c h
    have hd := digitChar_toNat (n % 10) (Nat.mod_lt _ (by decide))
    have hm : n % 10 < 10 := Nat.mod_lt _ (by decide)
    simp only [Nat.toDigitsCore] at h
    split at h
    · simp only [List.mem_singleton] at h
      rw [h, hd]
      omega
    · rw [toDigitsCore_append] at h
      rcases List.mem_append.mp h with h | h
      · exact ih _ _ h
      · simp only [List.mem_singleton] at h
        rw [h, hd]
        omega

theorem Itoa_digits (n : Nat) (c : Char) (h : c ∈ (Itoa n).data) :
    48 ≤ c.toNat ∧ c.toNat ≤ 57 :=
  toDigitsCore_digits _ _ _ h

theorem Itoa_data_ne_nil (n : Nat) : (Itoa n).data ≠ [] := by
  rw [Itoa_data]
  simp only [Nat.toDigitsCore]
  split
  · simp
  · rw [toDigitsCore_append]
    simp

/-! ## Splitting at a separator -/

theorem split_at_separator (sep : Char) :
    ∀ (l1 l2 r1 r2 : List Char), sep ∉ l1 → sep ∉ l2 →
      l1 ++ sep :: r1 = l2 ++ sep :: r2 → l1 = l2 ∧ r1 = r2 := by
  intro l1
  induction l1 with
  | nil =>
    intro l2 r1 r2 _ h2 h
    cases l2 with
    | nil =>
      simp only [List.nil_append, List.cons.injEq, true_and] at h
      exact ⟨rfl, h⟩
    | cons y l2 =>
      simp only [List.nil_append, List.cons_append, List.cons.injEq] at h
      exact absurd (List.mem_cons_self _ _) (h.1 ▸ h2)
  | cons x l1 ih =>
    intro l2 r1 r2 h1 h2 h
    cases l2 with
    | nil =>
      simp only [List.nil_append, List.cons_append, List.cons.injEq] at h
      exact absurd (List.mem_cons_self _ _) (h.1 ▸ h1)
    | cons y l2 =>
      simp only [List.cons_append, List.cons.injEq] at h
      obtain ⟨hxy, ht⟩ := h
      obtain ⟨e1, e2⟩ := ih l2 r1 r2 (fun hm => h1 (List.mem_cons_of_mem _ hm))
        (fun hm => h2 (List.mem_cons_of_mem _ hm)) ht
      exact ⟨by rw [hxy, e1], e2⟩

/-! ## The joined fields determine the lists -/

theorem join_nil : ("-".intercalate ([] : List String)).data = [] := rfl

theorem join_singleton (a : String) : ("-".intercalate [a]).data = a.data := rfl

theorem join_cons_cons (a b : String) (l : List String) :
    ("-".intercalate (a :: b :: l)).data = a.data ++ '-' :: ("-".intercalate (b :: l)).data := by
  rw [intercalate_cons_cons]
  simp only [String.data_append, List.append_assoc]
  rfl

theorem join_chars (l : List Nat) :
    ∀ c ∈ ("-".intercalate (l.map Itoa)).data, c = '-' ∨ (48 ≤ c.toNat ∧ c.toNat ≤ 57) := by
  induction l with
  | nil => intro c h; simp [join_nil] at h
  | cons a l ih =>
    intro c h
    cases l with
    | nil =>
      rw [List.map_cons, List.map_nil, join_singleton] at h
      exact Or.inr (Itoa_digits a c h)
    | cons b l =>
      rw [List.map_cons, List.map_cons, join_cons_cons] at h
      rcases List.mem_append.mp h with h | h
      · exact Or.inr (Itoa_digits a c h)
      · rcases List.mem_cons.mp h with h | h
        · exact Or.inl h
        · exact ih c (by rw [List.map_cons]; exact h)

theorem dash_not_mem_Itoa (n : Nat) : '-' ∉ (Itoa n).data := by
  intro h
  have := Itoa_digits n '-' h
  have e : ('-' : Char).toNat = 45 := rfl
  omega

theorem comma_not_mem_Itoa (n : Nat) : ',' ∉ (Itoa n).data := by
  intro h
  have := Itoa_digits n ',' h
  have e : (',' : Char).toNat = 44 := rfl
  omega

theorem comma_not_mem_join (l : List Nat) : ',' ∉ ("-".intercalate (l.map Itoa)).data := by
  intro h
  have e : (',' : Char).toNat = 44 := rfl
  rcases join_chars l ',' h with h | h
  · exact absurd h (by decide)
  · omega

theorem join_injective :
    ∀ (xs ys : List Nat),
      ("-".intercalate (xs.map Itoa)).data = ("-".intercalate (ys.map Itoa)).data → xs = ys := by
  intro xs
  induction xs with
  | nil =>
    intro ys h
    cases ys with
    | nil => rfl
    | cons b ys =>
      exfalso
      cases ys with
      | nil =>
        rw [List.map_nil, join_nil, List.map_cons, List.map_nil, join_singleton] at h
        exact Itoa_data_ne_nil b h.symm
      | cons b2 ys =>
        rw [List.map_nil, join_nil, List.map_cons, List.map_cons, join_cons_cons] at h
        exact Itoa_data_ne_nil b (List.append_eq_nil.mp h.symm).1
  | cons a xs ih =>
    intro ys h
    cases ys with
    | nil =>
      exfalso
      cases xs with
      | nil =>
        rw [List.map_nil, join_nil, List.map_cons, List.map_nil, join_singleton] at h
        exact Itoa_data_ne_nil a h
      | cons a2 xs =>
        rw [List.map_nil, join_nil, List.map_cons, List.map_cons, join_cons_cons] at h
        exact Itoa_data_ne_nil a (List.append_eq_nil.mp h).1
    | cons b ys =>
      cases xs with
      | nil =>
        cases ys with
        | nil =>
          rw [List.map_cons, List.map_nil, join_singleton, List.map_cons, List.map_nil,
            join_singleton] at h
          rw [Itoa_data_injective h]
        | cons b2 ys =>
          exfalso
          rw [List.map_cons, List.map_nil, join_singleton, List.map_cons, List.map_cons,
            join_cons_cons] at h
          apply dash_not_mem_Itoa a
          rw [h]
          exact List.mem_append_right _ (List.mem_cons_self _ _)
      | cons a2 xs =>
        cases ys with
        | nil =>
          exfalso
          rw [List.map_cons, List.map_cons, join_cons_cons, List.map_cons, List.map_nil,
            join_singleton] at h
          apply dash_not_mem_Itoa b
          rw [← h]
          exact List.mem_append_right _ (List.mem_cons_self _ _)
        | cons b2 ys =>
          rw [List.map_cons, List.map_cons, join_cons_cons, List.map_cons, List.map_cons,
            join_cons_cons] at h
          obtain ⟨e1, e2⟩ := split_at_separator '-' _ _ _ _ (dash_not_mem_Itoa a)
            (dash_not_mem_Itoa b) h
          rw [Itoa_data_injective e1, ih (b2 :: ys) (by rw [List.map_cons, List.map_cons]; exact e2)]

theorem join_u16_injective {xs ys : List U16}
    (h : ("-".intercalate (xs.map fun v => Itoa v.val)).data
      = ("-".intercalate (ys.map fun v => Itoa v.val)).data) : xs = ys := by
  have e : ∀ l : List U16, (l.map fun v => Itoa v.val) = (l.map Fin.val).map Itoa := by
    intro l; rw [List.map_map]; rfl
  rw [e xs, e ys] at h
  exact List.map_injective_iff.mpr Fin.val_injective (join_injective _ _ h)

theorem join_byte_injective {xs ys : List Byte}
    (h : ("-".intercalate (xs.map fun v => Itoa v.val)).data
      = ("-".intercalate (ys.map fun v => Itoa v.val)).data) : xs = ys := by
  have e : ∀ l : List Byte, (l.map fun v => Itoa v.val) = (l.map Fin.val).map Itoa := by
    intro l; rw [List.map_map]; rfl
  rw [e xs, e ys] at h
  exact List.map_injective_iff.mpr Fin.val_injective (join_injective _ _ h)

theorem comma_not_mem_join_u16 (l : List U16) :
    ',' ∉ ("-".intercalate (l.map fun v => Itoa v.val)).data := by
  have e : (l.map fun v => Itoa v.val) = (l.map Fin.val).map Itoa := by
    rw [List.map_map]; rfl
  rw [e]
  exact comma_not_mem_join _

theorem canonicalString_fields {b1 b2 : String} {p q : ParsedClientHello}
    (h : canonicalString b1 p = canonicalString b2 q) :
    p.TLSVersion = q.TLSVersion ∧ p.CipherSuites = q.CipherSuites
      ∧ p.Extensions = q.Extensions ∧ p.EllipticCurves = q.EllipticCurves
      ∧ p.EllipticCurveCompressionFormat = q.EllipticCurveCompressionFormat := by
  rw [canonicalString_join, canonicalString_join] at h
  have hd := congrArg String.data h
  simp only [String.data_append, List.append_assoc] at hd
  simp only [List.singleton_append] at hd
  obtain ⟨hv, hd⟩ := split_at_separator ',' _ _ _ _ (comma_not_mem_Itoa _)
    (comma_not_mem_Itoa _) hd
  obtain ⟨hcs, hd⟩ := split_at_separator ',' _ _ _ _ (comma_not_mem_join_u16 _)
    (comma_not_mem_join_u16 _) hd
  obtain ⟨hex, hd⟩ := split_at_separator ',' _ _ _ _ (comma_not_mem_join_u16 _)
    (comma_not_mem_join_u16 _) hd
  obtain ⟨hcu, hf⟩ := split_at_separator ',' _ _ _ _ (comma_not_mem_join_u16 _)
    (comma_not_mem_join_u16 _) hd
  refine ⟨?_, join_u16_injective hcs, join_u16_injective hex, join_u16_injective hcu,
    join_byte_injective hf⟩
  have hn := Itoa_data_injective hv
  have h1 := p.TLSVersion.Minor.isLt
  have h2 := q.TLSVersion.Minor.isLt
  have hM : p.TLSVersion.Major = q.TLSVersion.Major := Fin.ext (by omega)
  have hm : p.TLSVersion.Minor = q.TLSVersion.Minor := Fin.ext (by omega)
  cases hp : p.TLSVersion
  cases hq : q.TLSVersion
  rw [hp] at hM hm
  rw [hq] at hM hm
  simp only at hM hm
  rw [hM, hm]

/-- C19: the string that `MarshalJA3` hashes determines the fingerprinted fields. If it is the
same for two structures (whatever the pooled buffers held), they have the same `TLSVersion`
(`Major` and `Minor`), the same `CipherSuites`, the same `Extensions`, the same
`EllipticCurves` and the same `EllipticCurveCompressionFormat`, as sequences. -/
theorem canonicalString_injective (b1 b2 : String) (p q : ParsedClientHello)
    (h : canonicalString b1 p = canonicalString b2 q) :
    p.TLSVersion.Major = q.TLSVersion.Major ∧ p.TLSVersion.Minor = q.TLSVersion.Minor
      ∧ p.CipherSuites = q.CipherSuites ∧ p.Extensions = q.Extensions
      ∧ p.EllipticCurves = q.EllipticCurves
      ∧ p.EllipticCurveCompressionFormat = q.EllipticCurveCompressionFormat := by
  obtain ⟨hv, hc, he, hg, hf⟩ := canonicalString_fields h
  exact ⟨by rw [hv], by rw [hv], hc, he, hg, hf⟩

/-- The theorem `canonicalString_injective` at two structures with the canonical string
`771,4865-4866,0-10,,0` that differ in `SNI` and `Compression` only. -/
theorem canonicalString_injective_witness :
    ((3 : Byte) = 3 ∧ (3 : Byte) = 3)
      ∧ ([0x1301, 0x1302] : List U16) = [0x1301, 0x1302] ∧ ([0, 10] : List U16) = [0, 10]
      ∧ ([] : List U16) = [] ∧ ([0] : List Byte) = [0] := by
  have h := canonicalString_injective "" "junk"
    { TLSVersion := { Major := 3, Minor := 3 }, CipherSuites := [0x1301, 0x1302],
      Compression := { Method := 1, Type_ := 0 }, Extensions := [0, 10], SNI := [97],
      EllipticCurveCompressionFormat := [0] }
    { TLSVersion := { Major := 3, Minor := 3 }, CipherSuites := [0x1301, 0x1302],
      Compression := { Method := 2, Type_ := 5 }, Extensions := [0, 10], SNI := [],
      EllipticCurveCompressionFormat := [0] }
    (by decide)
  exact ⟨⟨h.1, h.2.1⟩, h.2.2.1, h.2.2.2.1, h.2.2.2.2.1, h.2.2.2.2.2⟩

/-! ## The fingerprint is the hexadecimal encoding of the digest of the canonical string -/

theorem fromHexChar_hextable (n : Nat) (hn : n < 16) :
    fromHexChar (hextable.getD n '0') = some n := by
  interval_cases n <;> rfl

theorem nibbles_of_byte (v : Nat) (hv : v < 256) :
    (((v >>> 4) <<< 4) ||| (v &&& 0x0f)) % 256 = v := by
  have h1 : v >>> 4 = v / 16 := Nat.shiftRight_eq_div_pow v 4
  have h2 : (v / 16) <<< 4 = 2 ^ 4 * (v / 16) := by rw [Nat.shiftLeft_eq, Nat.mul_comm]
  have h3 : v % 16 < 2 ^ 4 := Nat.mod_lt _ (by decide)
  rw [h1, h2, and_15, ← Nat.mul_add_lt_is_or h3]
  omega

/-- Decoding the hexadecimal encoding of a byte sequence gives the sequence back. -/
theorem hexDecodeString_EncodeToString (src : List Byte) :
    hexDecodeString (EncodeToString src) = .ok src := by
  simp only [hexDecodeString, EncodeToString]
  induction src with
  | nil => rfl
  | cons v rest ih =>
    have hv := v.isLt
    have hhi : v.val >>> 4 < 16 := by
      rw [Nat.shiftRight_eq_div_pow]
      exact Nat.div_lt_of_lt_mul (by omega)
    have hlo : v.val &&& 0x0f < 16 := by
      rw [and_15]
      exact Nat.mod_lt _ (by decide)
    have e : (⟨(((v.val >>> 4) <<< 4) ||| (v.val &&& 0x0f)) % 256,
        Nat.mod_lt _ (by decide)⟩ : Byte) = v := Fin.ext (nibbles_of_byte v.val hv)
    have step : ((v :: rest).flatMap fun v : Byte =>
          [hextable.getD (v.val >>> 4) '0', hextable.getD (v.val &&& 0x0f) '0'])
        = hextable.getD (v.val >>> 4) '0' :: hextable.getD (v.val &&& 0x0f) '0'
          :: (rest.flatMap fun v : Byte =>
            [hextable.getD (v.val >>> 4) '0', hextable.getD (v.val &&& 0x0f) '0']) := by
      rw [List.flatMap_cons]
      rfl
    rw [step, hexDecode, fromHexChar_hextable _ hhi, fromHexChar_hextable _ hlo]
    simp only [ih, e]

theorem hextable_digitChar (n : Nat) (hn : n < 16) :
    hextable.getD n '0' = Nat.digitChar n := by
  interval_cases n <;> rfl

/-- The encoding of `hex.EncodeToString` is the lowercase hexadecimal encoding. -/
theorem EncodeToString_eq_lowercaseHex (src : List Byte) :
    EncodeToString src = Spec.lowercaseHex src := by
  simp only [EncodeToString, Spec.lowercaseHex]
  congr 1
  induction src with
  | nil => rfl
  | cons v rest ih =>
    have hv := v.isLt
    have hhi : v.val >>> 4 = v.val / 16 := Nat.shiftRight_eq_div_pow v.val 4
    have hlo : v.val &&& 0x0f = v.val % 16 := and_15 v.val
    rw [List.flatMap_cons, List.flatMap_cons, ih, hhi, hlo,
      hextable_digitChar _ (Nat.div_lt_of_lt_mul (by omega)),
      hextable_digitChar _ (Nat.mod_lt _ (by decide))]

theorem join_chars_u16 (l : List U16) :
    ∀ c ∈ ("-".intercalate (l.map fun v => Itoa v.val)).data,
      c = '-' ∨ (48 ≤ c.toNat ∧ c.toNat ≤ 57) := by
  have e : (l.map fun v => Itoa v.val) = (l.map Fin.val).map Itoa := by
    rw [List.map_map]; rfl
  rw [e]
  exact join_chars _

theorem join_chars_byte (l : List Byte) :
    ∀ c ∈ ("-".intercalate (l.map fun v => Itoa v.val)).data,
      c = '-' ∨ (48 ≤ c.toNat ∧ c.toNat ≤ 57) := by
  have e : (l.map fun v => Itoa v.val) = (l.map Fin.val).map Itoa := by
    rw [List.map_map]; rfl
  rw [e]
  exact join_chars _

/-- The canonical string is made of the two delimiters and decimal digits. -/
theorem canonicalString_chars (pooled : String) (p : ParsedClientHello) :
    ∀ c ∈ (canonicalString pooled p).data,
      c = ',' ∨ c = '-' ∨ (48 ≤ c.toNat ∧ c.toNat ≤ 57) := by
  intro c hc
  rw [canonicalString_join] at hc
  simp only [String.data_append, List.mem_append] at hc
  have hcomma : ∀ x ∈ (",".data : List Char), x = ',' := by
    intro x hx
    simpa using hx
  rcases hc with ((((((((h | h) | h) | h) | h) | h) | h) | h) | h)
  · exact Or.inr (Or.inr (Itoa_digits _ c h))
  · exact Or.inl (hcomma c h)
  · exact Or.inr (join_chars_u16 _ c h)
  · exact Or.inl (hcomma c h)
  · exact Or.inr (join_chars_u16 _ c h)
  · exact Or.inl (hcomma c h)
  · exact Or.inr (join_chars_u16 _ c h)
  · exact Or.inl (hcomma c h)
  · exact Or.inr (join_chars_byte _ c h)

theorem Bytes_chars (s : String) (h : ∀ c ∈ s.data, c.toNat < 256) :
    (Bytes s).map (fun b => Char.ofNat b.val) = s.data := by
  simp only [Bytes, List.map_map]
  have : ∀ l : List Char, (∀ c ∈ l, c.toNat < 256) →
      List.map ((fun b : Byte => Char.ofNat b.val)
        ∘ fun c : Char => (⟨c.toNat % 256, Nat.mod_lt _ (by decide)⟩ : Byte)) l = l := by
    intro l
    induction l with
    | nil => intro _; rfl
    | cons c l ih =>
      intro hl
      rw [List.map_cons, ih (fun x hx => hl x (List.mem_cons_of_mem _ hx))]
      simp only [Function.comp, Nat.mod_eq_of_lt (hl c (List.mem_cons_self _ _)),
        Char.ofNat_toNat]
  exact this s.data h

theorem canonicalString_ascii (pooled : String) (p : ParsedClientHello) :
    ∀ c ∈ (canonicalString pooled p).data, c.toNat < 256 := by
  intro c hc
  have e1 : (',' : Char).toNat = 44 := rfl
  have e2 : ('-' : Char).toNat = 45 := rfl
  rcases canonicalString_chars pooled p c hc with h | h | h
  · rw [h, e1]; omega
  · rw [h, e2]; omega
  · omega

/-- C6: for every structure, whatever the digest function standing for `md5.Sum` and whatever
the pooled buffer held, `MarshalJA3` returns a nil error and the lowercase hexadecimal encoding
of the digest of the bytes of the canonical string: the returned string holds, for each of the
16 bytes `b` of the digest in order, the digit of `b / 16` and the digit of `b % 16`; decoding
it as hexadecimal gives back exactly the bytes of the digest; the bytes that are digested are
the characters of the canonical string, one byte each; and the returned string has exactly 32
characters, each one of `0123456789abcdef`. -/
theorem MarshalJA3_hex_digest (md5Sum : List Byte → Digest) (pooled : String)
    (p : ParsedClientHello) :
    (MarshalJA3 md5Sum pooled p).2.1 = none
      ∧ (MarshalJA3 md5Sum pooled p).1
          = Spec.lowercaseHex (md5Sum (Bytes (canonicalString pooled p))).val
      ∧ hexDecodeString (MarshalJA3 md5Sum pooled p).1
          = .ok (md5Sum (Bytes (canonicalString pooled p))).val
      ∧ (Bytes (canonicalString pooled p)).map (fun b => Char.ofNat b.val)
          = (canonicalString pooled p).data
      ∧ (MarshalJA3 md5Sum pooled p).1.length = 32
      ∧ ∀ c ∈ (MarshalJA3 md5Sum pooled p).1.data, c ∈ "0123456789abcdef".data := by
  refine ⟨rfl, ?_, ?_, ?_, ?_, ?_⟩
  · exact EncodeToString_eq_lowercaseHex _
  · exact hexDecodeString_EncodeToString _
  · exact Bytes_chars _ (canonicalString_ascii pooled p)
  · simp only [MarshalJA3, EncodeToString_length, (md5Sum _).property]
  · exact EncodeToString_mem _

end JA3
